import Mathlib

/-!
Verification of the Kindle Manga Optimizer (src/main.py) against its design
specification.  The Python program is shallowly embedded: its pure data
manipulations (chapter sorting keys, volume planning, sequence numbering,
directory scanning, the enhancement-pipeline control flow, and the
trim-and-pad geometry) are translated into executable Lean definitions,
and the specified properties are proved about those definitions.

Python `str` values are modelled by Lean `String`; all character-level
operations used by the program (lower-casing, whitespace stripping,
lexicographic comparison, digit parsing) are defined here over `String.data`
so that every definition reduces inside the kernel.
-/

namespace KMO

/-- Model of Python `str.lower` on a single character, covering ASCII
letters and the accented Spanish letters that occur in the program's
preset identifiers.  Other characters are unchanged. -/
def pyLowerChar (c : Char) : Char :=
  if 'A' ≤ c ∧ c ≤ 'Z' then Char.ofNat (c.toNat + 32)
  else if c = 'Á' then 'á'
  else if c = 'É' then 'é'
  else if c = 'Í' then 'í'
  else if c = 'Ó' then 'ó'
  else if c = 'Ú' then 'ú'
  else if c = 'Ñ' then 'ñ'
  else c

/-- Model of Python `str.lower` (character-wise). -/
def pyLower (s : String) : String := ⟨s.data.map pyLowerChar⟩

/-- Whitespace characters removed by Python `str.strip()` (the ones that can
occur in the program's identifiers). -/
def isPySpace (c : Char) : Bool := c = ' ' ∨ c = '\t' ∨ c = '\n' ∨ c = '\r'

/-- Model of Python `str.strip()`: drop whitespace from both ends. -/
def pyStrip (s : String) : String :=
  ⟨((s.data.dropWhile isPySpace).reverse.dropWhile isPySpace).reverse⟩

/-- Model of Python `str.startswith`: list prefix test on the characters. -/
def pyStartsWith (s pre : String) : Bool := pre.data.isPrefixOf s.data

/-- Lexicographic (code-point) comparison of character lists, as Python
compares strings. -/
def charsLE : List Char → List Char → Bool
  | [], _ => true
  | _ :: _, [] => false
  | a :: as, b :: bs => if a < b then true else if b < a then false else charsLE as bs

/-- Model of Python string `<=` (lexicographic by code point). -/
def pyStrLE (a b : String) : Bool := charsLE a.data b.data

/-- Numeric value of a list of decimal digit characters. -/
def natOfDigits (l : List Char) : Nat :=
  l.foldl (fun acc c => acc * 10 + (c.toNat - 48)) 0

/-- Model of Python `int(s)` restricted to the strings that the program's
regex captures produce: a non-empty all-digit string parses to its value,
anything else raises (modelled as `none`). -/
def pyInt? (s : String) : Option Int :=
  if s.data ≠ [] ∧ s.data.all Char.isDigit then some (Int.ofNat (natOfDigits s.data))
  else none

/-- The sorting key produced by `SourceProfile.sort_chapter_key` /
`sort_image_key`: Python's `(0, int)` tuples are `numKey`, the `(1, str)`
fallbacks are `strKey`.  Tuple comparison never compares an `int` with a
`str` because the first components already differ. -/
inductive SKey where
  | numKey (n : Int)
  | strKey (s : String)
deriving DecidableEq

/-- Python tuple `<=` on the sorting keys: `(0, _) < (1, _)`; numeric keys
by integer value; fallback keys lexicographically. -/
def skeyLE : SKey → SKey → Bool
  | .numKey a, .numKey b => a ≤ b
  | .numKey _, .strKey _ => true
  | .strKey _, .numKey _ => false
  | .strKey a, .strKey b => pyStrLE a b

/-- `SourceProfile` from src/main.py.  A compiled regex with one capturing
group is modelled extensionally as its search function: applied to a name it
returns the text of group 1 of the first match, or `none` when the pattern
does not match. -/
structure SourceProfile where
  key : String
  label : String
  chapter_dir_regex : Option (String → Option String)
  image_file_regex : Option (String → Option String)
  expects_subfolders : Bool := true

/-- `SourceProfile.sort_chapter_key` (src/main.py lines 52-60): on a match
whose capture parses as an integer return `(0, int)`, otherwise fall back to
`(1, name.lower())`. -/
def SourceProfile.sort_chapter_key (profile : SourceProfile) (name : String) : SKey :=
  match profile.chapter_dir_regex with
  | some search =>
    match search name with
    | some cap =>
      match pyInt? cap with
      | some n => .numKey n
      | none => .strKey (pyLower name)
    | none => .strKey (pyLower name)
  | none => .strKey (pyLower name)

/-- `SourceProfile.sort_image_key` (src/main.py lines 62-70): same strategy
against the image pattern. -/
def SourceProfile.sort_image_key (profile : SourceProfile) (name : String) : SKey :=
  match profile.image_file_regex with
  | some search =>
    match search name with
    | some cap =>
      match pyInt? cap with
      | some n => .numKey n
      | none => .strKey (pyLower name)
    | none => .strKey (pyLower name)
  | none => .strKey (pyLower name)

/-- First maximal run of decimal digits in a character list (`none` when the
string has no digit). -/
def digitRunSearch : List Char → Option (List Char)
  | [] => none
  | c :: cs => if c.isDigit then some (c :: cs.takeWhile Char.isDigit) else digitRunSearch cs

/-- Search function of a single-group regex that matches and captures the
first integer in a name (the shape of the program's chapter patterns, e.g. a
pattern matching `Chapter <int>`). -/
def firstIntSearch (s : String) : Option String :=
  (digitRunSearch s.data).map (fun l => ⟨l⟩)

/-- A profile whose chapter and image patterns match `<marker> <int>` names
by capturing their first digit run, standing in for the program's compiled
`TMO`/`INMANGA` regexes on such names. -/
def chapterIntProfile : SourceProfile :=
  { key := "TMO"
    label := "TMO (mixto)"
    chapter_dir_regex := some firstIntSearch
    image_file_regex := some firstIntSearch
    expects_subfolders := true }

/-- Python's stable ascending sort (`list.sort(key=...)` / `sorted`)
modelled by Mathlib's stable insertion sort under the tuple-key order. -/
def sortByKey (key : String → SKey) (names : List String) : List String :=
  List.insertionSort (fun a b => skeyLE (key a) (key b) = true) names

/-- `Chapter` from src/main.py lines 32-41 (`dir` keeps the subdirectory
name; `pages` is the image count). -/
structure Chapter where
  name : String
  dir : String
  images : List String
  enabled : Bool := true
deriving DecidableEq

/-- `Chapter.pages`: count of images. -/
def Chapter.pages (c : Chapter) : Nat := c.images.length

/-- Python `[xs[i:i+g] for i in range(0, len(xs), g)]` for `g ≥ 1`: split a
list into consecutive groups of `g`, the final group possibly smaller.  (The
program always calls this with `g = max(1, group_size)`; the `g = 0` branch
is unreachable there and mirrors a single full slice.) -/
def chunksOf {α : Type} (g : Nat) : List α → List (List α)
  | [] => []
  | x :: xs =>
    if hg : g = 0 then [x :: xs]
    else (x :: xs).take g :: chunksOf g ((x :: xs).drop g)
termination_by l => l.length
decreasing_by
  simp only [List.length_drop, List.length_cons]
  omega

/-- `KindleMangaOptimizer.build_plan` (src/main.py lines 933-936): filter to
enabled chapters (order preserved) and group them `max 1 group_size` at a
time. -/
def build_plan (chapters : List Chapter) (group_size : Nat) : List (List Chapter) :=
  chunksOf (max 1 group_size) (chapters.filter (·.enabled))

/-- Volume numbers assigned by `update_plan_view` (src/main.py lines
945-949): `vnum = max(1, start_volume) + idx` in partition order. -/
def plan_volume_numbers (start_volume : Nat) (plan : List (List Chapter)) : List Nat :=
  (List.range plan.length).map (fun idx => max 1 start_volume + idx)

/-- Page count of one volume (`sum(ch.pages for ch in vol)`). -/
def volume_pages (vol : List Chapter) : Nat := (vol.map Chapter.pages).sum

/-- Total page count reported by `update_plan_view`. -/
def plan_total_pages (plan : List (List Chapter)) : Nat := (plan.map volume_pages).sum

/-- Concrete chapters used to instantiate the planner theorem: three enabled
chapters and one disabled one. -/
def demoChapters : List Chapter :=
  [ { name := "Chapter 1", dir := "Chapter 1", images := ["001.jpg", "002.jpg", "003.jpg"] },
    { name := "Chapter 2", dir := "Chapter 2", images := ["001.jpg", "002.jpg"] },
    { name := "Chapter 3", dir := "Chapter 3", images := ["001.jpg"], enabled := false },
    { name := "Chapter 4", dir := "Chapter 4", images := ["001.jpg", "002.jpg"] } ]

/-- Model of Python `f"{n:0<width>d}"`: decimal representation left-padded
with zeros to `width`. -/
def pyZFill (width : Nat) (n : Nat) : String :=
  let s := Nat.repr n
  if s.length < width then ⟨List.replicate (width - s.length) '0' ++ s.data⟩ else s

/-- Observable actions of the export worker thread
(`_process_plan_worker`, src/main.py lines 969-1034).  UI updates
(progress bars, button states) are omitted; `runKCC` stands for one
invocation of `convert_folder_to_mobi`, whose internal filesystem traffic
(output scan and rename) it subsumes. -/
inductive Effect where
  | log (msg : String)
  | rmtree (dir : String)
  | mkdir (dir : String)
  | writeFile (path : String) (seq : Nat)
  | runKCC (volume : Nat) (dir : String)
deriving DecidableEq

/-- Filesystem side effects: everything except log messages. -/
def Effect.isFsEffect : Effect → Bool
  | .log _ => false
  | _ => true

/-- `process_single_image_seq` (src/main.py lines 912-930) as one effect:
`ok` is the oracle saying whether decoding and processing the source image
succeeds; on success the result is saved as `dest/{seq:05d}.jpg`, on any
exception an error is logged and nothing is written. -/
def process_single_image_effect (ok : String → Bool) (dest img : String) (seq : Nat) :
    Effect :=
  if ok img then .writeFile (dest ++ "/" ++ pyZFill 5 seq ++ ".jpg") seq
  else .log ("Error procesando " ++ img)

/-- Inner image loop of `_process_plan_worker` (src/main.py lines 1012-1017):
per image, first read the cancel flag (the `k`-th read of `cancel_event`,
modelled by the oracle `cancel`) and break when set, otherwise process the
image and advance the per-volume counter `seq`.  Returns the effects, the
counter and the read index after the loop. -/
def imagesLoop (ok : String → Bool) (cancel : Nat → Bool) (dest : String) :
    List String → Nat → Nat → List Effect × Nat × Nat
  | [], seq, k => ([], seq, k)
  | img :: rest, seq, k =>
    if cancel k then ([], seq, k + 1)
    else
      let r := imagesLoop ok cancel dest rest (seq + 1) (k + 1)
      (process_single_image_effect ok dest img seq :: r.1, r.2)

/-- Chapter loop of `_process_plan_worker` (src/main.py lines 1011-1019):
for each chapter run the image loop, then re-read the cancel flag and break
when set.  The counter `seq` is shared across the chapters of one volume. -/
def chaptersLoop (ok : String → Bool) (cancel : Nat → Bool) (dest : String) :
    List Chapter → Nat → Nat → List Effect × Nat × Nat
  | [], seq, k => ([], seq, k)
  | ch :: rest, seq, k =>
    let r := imagesLoop ok cancel dest ch.images seq k
    if cancel r.2.2 then (r.1, r.2.1, r.2.2 + 1)
    else
      let r2 := chaptersLoop ok cancel dest rest r.2.1 (r.2.2 + 1)
      (r.1 ++ r2.1, r2.2)

/-- All images of a volume in chapter order. -/
def volumeImages (vol : List Chapter) : List String :=
  (vol.map Chapter.images).flatten

/-- Spec-side description of the written sequence numbers (from the spec's
words): a counter starting at `seq` is advanced once per image attempted,
and only successful attempts produce a file, so a failure leaves a gap. -/
def seqWrites (ok : String → Bool) : List String → Nat → List Nat
  | [], _ => []
  | img :: rest, seq => (if ok img then [seq] else []) ++ seqWrites ok rest (seq + 1)

/-- Sequence numbers of the files written in a list of effects. -/
def writeSeqs (es : List Effect) : List Nat :=
  es.filterMap (fun e => match e with | .writeFile _ s => some s | _ => none)

/-- Volume loop of `_process_plan_worker` (src/main.py lines 997-1032):
per volume, read the cancel flag (break with a log when set), clear and
recreate the volume's temp directory, export its images with a fresh
counter starting at 1, re-read the cancel flag (break with a log when set),
then hand the directory to KCC (`kccOk` is the oracle for the external
conversion succeeding); `created` counts successful conversions. -/
def volumesLoop (ok : String → Bool) (cancel : Nat → Bool) (kccOk : Nat → Bool)
    (start_v : Nat) : List (List Chapter) → Nat → Nat → Nat → List Effect × Nat
  | [], _, _, created => ([], created)
  | vol :: rest, idx, k, created =>
    if cancel k then ([.log "⛔ Proceso cancelado por el usuario."], created)
    else
      let vnum := start_v + idx
      let vol_tmp := "temp/vol_" ++ pyZFill 2 vnum
      let r := chaptersLoop ok cancel vol_tmp vol 1 (k + 1)
      let pre := Effect.rmtree vol_tmp :: Effect.mkdir vol_tmp :: r.1
      if cancel r.2.2 then
        (pre ++ [.log "⛔ Proceso cancelado tras exportar imágenes."], created)
      else
        let post := Effect.runKCC vnum vol_tmp ::
          (if kccOk vnum then []
           else [.log ("❌ Falló conversión del volumen v" ++ pyZFill 2 vnum ++
                       " (continuando con el siguiente).")])
        let r2 := volumesLoop ok cancel kccOk start_v rest (idx + 1) (r.2.2 + 1)
          (created + if kccOk vnum then 1 else 0)
        (pre ++ post ++ r2.1, r2.2)

/-- The configuration snapshot the worker reads. -/
structure AppState where
  selected_folder : Option String
  chapters : List Chapter
  group_size : Nat
  start_volume : Nat
  series_title : String
  clean_temp_before : Bool
  clean_ebooks_before : Bool

/-- `_process_plan_worker` (src/main.py lines 969-1034) as the list of
effects it performs: the two fatal-precondition checks come first, then
optional cleaning and recreation of `temp/` and `ebooks/`, the start log,
the volume loop and the final summary log. -/
def process_plan_worker (st : AppState) (ok : String → Bool) (cancel : Nat → Bool)
    (kccOk : Nat → Bool) : List Effect :=
  match st.selected_folder with
  | none => [.log "⚠ Selecciona primero una carpeta."]
  | some folder =>
    let plan := build_plan st.chapters st.group_size
    if plan.isEmpty then [.log "⚠ No hay capítulos habilitados."]
    else
      let series := if (pyStrip st.series_title).data ≠ [] then pyStrip st.series_title
                    else folder
      let r := volumesLoop ok cancel kccOk (max 1 st.start_volume) plan 0 0 0
      (if st.clean_temp_before then [Effect.rmtree "temp"] else []) ++
      [Effect.mkdir "temp"] ++
      (if st.clean_ebooks_before then [Effect.rmtree "ebooks"] else []) ++
      [Effect.mkdir "ebooks"] ++
      [Effect.log ("Inicio de conversión: " ++ Nat.repr plan.length ++
                   " volúmen(es). Serie: " ++ series)] ++
      r.1 ++
      [Effect.log ("✅ Proceso finalizado. " ++ Nat.repr r.2 ++
                   " archivo(s) MOBI generados.")]

/-- One directory entry as the scanner sees it.  `file`/`dir` are entries
whose `stat` succeeds; `broken` is an entry whose `stat` raises `OSError`
(for those, `pathlib`'s `is_file()`/`is_dir()` swallow the error and return
`False`).  A `dir`'s `listing` is the outcome of iterating it:
`Except.error ()` models `iterdir()` raising (e.g. permission denied). -/
inductive FsNode where
  | file (name : String)
  | dir (name : String) (listing : Except Unit (List FsNode))
  | broken (name : String)

/-- Entry name (`Path.name`). -/
def FsNode.name : FsNode → String
  | .file n => n
  | .dir n _ => n
  | .broken n => n

/-- `pathlib.Path.is_dir()`: true for a directory, false for files and for
entries whose `stat` raises. -/
def FsNode.is_dir : FsNode → Bool
  | .dir _ _ => true
  | _ => false

/-- `pathlib.Path.is_file()`: true for a regular file, false for
directories and for entries whose `stat` raises. -/
def FsNode.is_file : FsNode → Bool
  | .file _ => true
  | _ => false

/-- Entry whose `stat` raises `OSError`. -/
def FsNode.isBroken : FsNode → Bool
  | .broken _ => true
  | _ => false

/-- `pathlib.Path.suffix`: the extension from the last dot onward, empty
when the name has no dot, starts with its only dot, or ends with it. -/
def pySuffix (name : String) : String :=
  let l := name.data
  match ((List.range l.length).filter (fun i => l.getD i ' ' = '.')).getLast? with
  | some i => if 0 < i ∧ i + 1 < l.length then ⟨l.drop i⟩ else ""
  | none => ""

/-- `f.suffix.lower() in {'.jpg', '.jpeg', '.png', '.webp'}`
(src/main.py line 490): the accepted image extensions, case-insensitive. -/
def isImageSuffix (name : String) : Bool :=
  [".jpg", ".jpeg", ".png", ".webp"].contains (pyLower (pySuffix name))

/-- `list.sort(key=...)` on directory entries: Python's stable ascending
sort under the tuple-key order, keyed on the entry name. -/
def sortNodesBy (key : String → SKey) (nodes : List FsNode) : List FsNode :=
  List.insertionSort (fun a b => skeyLE (key a.name) (key b.name) = true) nodes

/-- The files of one listing that the scanner keeps: regular files with an
accepted extension, sorted by the image key (src/main.py lines 495-496). -/
def matchingFiles (profile : SourceProfile) (children : List FsNode) : List FsNode :=
  sortNodesBy profile.sort_image_key
    (children.filter (fun f => f.is_file && isImageSuffix f.name))

/-- A `dir` entry's name and listing. -/
def dirListing? : FsNode → Option (String × Except Unit (List FsNode))
  | .dir n l => some (n, l)
  | _ => none

/-- Inner loop of `scan_images` over the sorted subdirectories (src/main.py
lines 494-498): iterate each subdirectory (its `iterdir` may raise, which
propagates), keep the matching files, and append a Chapter only when at
least one file matched. -/
def scanSubdirs (profile : SourceProfile) :
    List (String × Except Unit (List FsNode)) → Except Unit (List Chapter)
  | [] => .ok []
  | (dname, listing) :: rest =>
    match listing with
    | .error e => .error e
    | .ok children =>
      let files := matchingFiles profile children
      match scanSubdirs profile rest with
      | .error e => .error e
      | .ok chapters =>
        if files.isEmpty then .ok chapters
        else .ok ({ name := dname, dir := dname, images := files.map FsNode.name,
                    enabled := true } :: chapters)

/-- `KindleMangaOptimizer.scan_images` (src/main.py lines 485-506) on a
selected folder whose own listing is `root`: in subfolder mode enumerate
the immediate subdirectories sorted by the chapter key and scan each one;
otherwise treat the whole folder as one chapter.  No exception is caught,
so any failing listing aborts the scan. -/
def scan_images (profile : SourceProfile) (process_subfolders : Bool)
    (rootName : String) (root : Except Unit (List FsNode)) :
    Except Unit (List Chapter) :=
  if profile.expects_subfolders && process_subfolders then
    match root with
    | .error e => .error e
    | .ok entries =>
      scanSubdirs profile
        ((sortNodesBy profile.sort_chapter_key (entries.filter (·.is_dir))).filterMap
          dirListing?)
  else
    match root with
    | .error e => .error e
    | .ok entries =>
      let files := matchingFiles profile entries
      if files.isEmpty then .ok []
      else .ok [{ name := rootName, dir := rootName, images := files.map FsNode.name,
                  enabled := true }]

/-- Modelled from the spec (§4.2): the pure, exception-free description of
subfolder scanning — immediate subdirectories sorted by chapter key, each
contributing a Chapter of its accepted files sorted by image key, initially
enabled, with empty subdirectories dropped. -/
def specScan (profile : SourceProfile) (entries : List FsNode) : List Chapter :=
  (sortNodesBy profile.sort_chapter_key (entries.filter (·.is_dir))).filterMap
    (fun d =>
      match d with
      | .dir dname (.ok children) =>
        let files := matchingFiles profile children
        if files.isEmpty then none
        else some { name := dname, dir := dname, images := files.map FsNode.name,
                    enabled := true }
      | _ => none)

/-- Every immediate subdirectory of the entry list can be listed without an
exception. -/
def ListingsOk (entries : List FsNode) : Prop :=
  ∀ n l, FsNode.dir n l ∈ entries → ∃ cs, l = .ok cs

/-- A small source tree with one readable chapter directory and one
directory whose listing raises. -/
def demoBrokenFs : List FsNode :=
  [ .dir "Chapter 1" (.ok [.file "001.jpg", .file "002.jpg"]),
    .dir "Chapter 2" (.error ()) ]

/-- A readable source tree: subdirectories out of order, a loose file, an
unmatching file, an empty chapter directory and a stat-broken entry. -/
def demoScanFs : List FsNode :=
  [ .dir "Chapter 2" (.ok [.file "002.jpg", .file "001.jpg", .file "notes.txt"]),
    .file "cover.png",
    .dir "Chapter 1" (.ok [.file "001.PNG"]),
    .dir "extras" (.ok [.file "readme.md"]),
    .broken "junk" ]

/-- The configuration snapshot read by `enhance_image_preset`: the four
pre-pass toggles, the two global multipliers (Python floats modelled as
exact rationals) and the dither flag (src/main.py lines 103-115). -/
structure EnhConfig where
  to_grayscale : Bool
  auto_contrast : Bool
  noise_reduction : Bool
  adaptive_threshold : Bool
  contrast_boost : Rat
  sharpness_boost : Rat
  eink_dither : Bool

/-- The primitive image transforms that `enhance_image_preset` composes
(PIL and OpenCV calls, src/main.py lines 796-846), abstracted as functions
on an arbitrary image type: the pipeline's control flow is embedded
exactly, the pixel-level kernels are opaque. -/
structure ImageOps (Img : Type) where
  grayscale_rgb : Img → Img
  autocontrast : Img → Img
  bilateral : Img → Img
  adaptive_binarize : Img → Img
  clahe : Rat → Nat → Img → Img
  unsharp : Rat → Rat → Img → Img
  nl_means : Nat → Img → Img
  sauvola : Img → Img
  auto_trim : Nat → Img → Img
  contrast : Rat → Img → Img
  sharpness : Rat → Img → Img
  dither : Img → Img

/-- Step 0 of `enhance_image_preset` (src/main.py lines 850-870): the four
pre-pass toggles applied in this fixed order when enabled. -/
def prePassApply {Img : Type} (ops : ImageOps Img) (cfg : EnhConfig) (img : Img) : Img :=
  let img := if cfg.to_grayscale then ops.grayscale_rgb img else img
  let img := if cfg.auto_contrast then ops.autocontrast img else img
  let img := if cfg.noise_reduction then ops.bilateral img else img
  if cfg.adaptive_threshold then ops.adaptive_binarize img else img

/-- The preset branch of `enhance_image_preset` (src/main.py lines 875-892)
on the already stripped and lowered identifier `p`: an `elif` chain of
prefix tests, with both the explicit crop-only arm and an unmatched
identifier leaving the image unchanged. -/
def presetApply {Img : Type} (ops : ImageOps Img) (p : String) (img : Img) : Img :=
  if pyStartsWith p "manga limpio" then ops.unsharp 1 (6/10) (ops.clahe 2 8 img)
  else if pyStartsWith p "manga antiguo" then ops.unsharp 1 (5/10) (ops.clahe (26/10) 8 img)
  else if pyStartsWith p "escaneo con artefactos" then
    ops.unsharp (12/10) (6/10) (ops.nl_means 6 img)
  else if pyStartsWith p "texto pequeño" then ops.sauvola img
  else if pyStartsWith p "sólo recorte" then img
  else img

/-- Tail of `enhance_image_preset` (src/main.py lines 894-905): the
always-applied trim-and-pad, then contrast scaling, then sharpness scaling,
then optional dithering. -/
def postApply {Img : Type} (ops : ImageOps Img) (cfg : EnhConfig) (img : Img) : Img :=
  let img := ops.auto_trim 16 img
  let img := ops.contrast cfg.contrast_boost img
  let img := ops.sharpness cfg.sharpness_boost img
  if cfg.eink_dither then ops.dither img else img

/-- `KindleMangaOptimizer.enhance_image_preset` (src/main.py lines 849-905):
pre-pass, then the preset branch selected on `preset.strip().lower()`, then
the always-applied tail. -/
def enhance_image_preset {Img : Type} (ops : ImageOps Img) (cfg : EnhConfig)
    (preset : String) (img : Img) : Img :=
  postApply ops cfg (presetApply ops (pyLower (pyStrip preset)) (prePassApply ops cfg img))

/-- Labels of the pipeline's primitive transforms, with their parameters. -/
inductive Stage where
  | grayscale
  | autocontrast
  | bilateral
  | adaptiveBinarize
  | clahe (clip : Rat) (tile : Nat)
  | unsharp (radius amount : Rat)
  | nlMeans (strength : Nat)
  | sauvola
  | trimPad (pad : Nat)
  | contrast (factor : Rat)
  | sharpness (factor : Rat)
  | dither
deriving DecidableEq

/-- The trace interpretation of the primitive transforms: an image is the
list of stages applied to it so far, and each transform appends its
label. -/
def traceOps : ImageOps (List Stage) where
  grayscale_rgb t := t ++ [.grayscale]
  autocontrast t := t ++ [.autocontrast]
  bilateral t := t ++ [.bilateral]
  adaptive_binarize t := t ++ [.adaptiveBinarize]
  clahe c g t := t ++ [.clahe c g]
  unsharp r a t := t ++ [.unsharp r a]
  nl_means s t := t ++ [.nlMeans s]
  sauvola t := t ++ [.sauvola]
  auto_trim p t := t ++ [.trimPad p]
  contrast f t := t ++ [.contrast f]
  sharpness f t := t ++ [.sharpness f]
  dither t := t ++ [.dither]

/-- The ordered list of stages `enhance_image_preset` applies for a given
configuration and preset identifier. -/
def enhanceTrace (cfg : EnhConfig) (preset : String) : List Stage :=
  enhance_image_preset traceOps cfg preset []

/-- Modelled from the spec (§4.3 step 1): the pre-pass toggles in their
fixed relative order — grayscale-then-expand, autocontrast, basic
smoothing, legacy binarize — each present only when enabled. -/
def prePassStages (cfg : EnhConfig) : List Stage :=
  (if cfg.to_grayscale then [Stage.grayscale] else []) ++
  (if cfg.auto_contrast then [Stage.autocontrast] else []) ++
  (if cfg.noise_reduction then [Stage.bilateral] else []) ++
  (if cfg.adaptive_threshold then [Stage.adaptiveBinarize] else [])

/-- Modelled from the spec (§4.3 step 2): the stages of the single preset
branch selected by case-insensitive prefix match, with the crop-only branch
and an unmatched identifier contributing no stage. -/
def presetStages (preset : String) : List Stage :=
  let p := pyLower (pyStrip preset)
  if pyStartsWith p "manga limpio" then [Stage.clahe 2 8, Stage.unsharp 1 (6/10)]
  else if pyStartsWith p "manga antiguo" then
    [Stage.clahe (26/10) 8, Stage.unsharp 1 (5/10)]
  else if pyStartsWith p "escaneo con artefactos" then
    [Stage.nlMeans 6, Stage.unsharp (12/10) (6/10)]
  else if pyStartsWith p "texto pequeño" then [Stage.sauvola]
  else []

/-- The preset dispatch as a relation, each branch guarded only by its own
prefix test on the stripped, lowered identifier (the source's `elif`
ordering is dropped, so that the branches' mutual exclusivity — and with it
the determinism of the dispatch — must be proved, not assumed). -/
inductive PresetRel {Img : Type} (ops : ImageOps Img) : String → Img → Img → Prop
  | clean (p : String) (img : Img)
      (h : pyStartsWith (pyLower (pyStrip p)) "manga limpio" = true) :
      PresetRel ops p img (ops.unsharp 1 (6/10) (ops.clahe 2 8 img))
  | old (p : String) (img : Img)
      (h : pyStartsWith (pyLower (pyStrip p)) "manga antiguo" = true) :
      PresetRel ops p img (ops.unsharp 1 (5/10) (ops.clahe (26/10) 8 img))
  | jpegScan (p : String) (img : Img)
      (h : pyStartsWith (pyLower (pyStrip p)) "escaneo con artefactos" = true) :
      PresetRel ops p img (ops.unsharp (12/10) (6/10) (ops.nl_means 6 img))
  | smallText (p : String) (img : Img)
      (h : pyStartsWith (pyLower (pyStrip p)) "texto pequeño" = true) :
      PresetRel ops p img (ops.sauvola img)
  | cropOnly (p : String) (img : Img)
      (h : pyStartsWith (pyLower (pyStrip p)) "sólo recorte" = true) :
      PresetRel ops p img img
  | noMatch (p : String) (img : Img)
      (h1 : pyStartsWith (pyLower (pyStrip p)) "manga limpio" = false)
      (h2 : pyStartsWith (pyLower (pyStrip p)) "manga antiguo" = false)
      (h3 : pyStartsWith (pyLower (pyStrip p)) "escaneo con artefactos" = false)
      (h4 : pyStartsWith (pyLower (pyStrip p)) "texto pequeño" = false)
      (h5 : pyStartsWith (pyLower (pyStrip p)) "sólo recorte" = false) :
      PresetRel ops p img img

/-- The whole pipeline as a relation: pre-pass (a function of the toggles),
one step of the preset dispatch relation, then the always-applied tail. -/
def EnhanceRel {Img : Type} (ops : ImageOps Img) (cfg : EnhConfig) (preset : String)
    (img out : Img) : Prop :=
  ∃ mid, PresetRel ops preset (prePassApply ops cfg img) mid ∧
    out = postApply ops cfg mid

/-- A concrete configuration for instantiating the pipeline theorems
(matching the program's defaults, src/main.py lines 103-115). -/
def demoCfg : EnhConfig :=
  { to_grayscale := false, auto_contrast := true, noise_reduction := true,
    adaptive_threshold := false, contrast_boost := 115/100,
    sharpness_boost := 12/10, eink_dither := false }

/-- The resize step of `process_single_image_seq` (src/main.py lines
915-917) on image dimensions, applied before `enhance_image` runs: only
when the width strictly exceeds the configured target width is the image
downscaled to exactly that width, with the height scaled proportionally and
truncated to an integer (`int(h * target / w)`, exact integer division
here). -/
def resize_for_width (target w h : Nat) : Nat × Nat :=
  if target < w then (target, h * target / w) else (w, h)

/-- A grayscale image as rows of pixel values in 0..255.
`_auto_trim_and_pad` (src/main.py lines 832-843) computes all its geometry
on the grayscale conversion of the colour image, and the padding it adds is
pure white in every channel (grey level 255), so the grayscale grid carries
everything the stage's bounding-box behaviour depends on. -/
abbrev Gray := List (List Nat)

/-- A row contains a foreground pixel: `cv2.threshold(gray, 0, 255,
THRESH_BINARY_INV + THRESH_OTSU)` marks as foreground exactly the pixels
whose value is at most the returned threshold. -/
def rowHasFg (t : Nat) (row : List Nat) : Bool := row.any (fun v => v ≤ t)

/-- Indices of the rows containing foreground, ascending. -/
def fgRowIdxs (t : Nat) (img : Gray) : List Nat :=
  (List.range img.length).filter (fun i => rowHasFg t (img.getD i []))

/-- Column `j` contains a foreground pixel. -/
def colHasFg (t : Nat) (img : Gray) (j : Nat) : Bool :=
  img.any (fun row => (row[j]?).any (fun v => v ≤ t))

/-- Width of a rectangular image (length of its first row). -/
def imgWidth (img : Gray) : Nat := (img.headD []).length

/-- Indices of the columns containing foreground, ascending. -/
def fgColIdxs (t : Nat) (img : Gray) : List Nat :=
  (List.range (imgWidth img)).filter (colHasFg t img)

/-- `img_cv[y:y+h, x:x+w]` (src/main.py line 839). -/
def cropGrid (y h x w : Nat) (img : Gray) : Gray :=
  ((img.drop y).take h).map (fun row => (row.drop x).take w)

/-- `np.full((h+2p, w+2p, 3), 255)` with the cropped image written into its
centre (src/main.py lines 841-842): a uniform white margin of `p` pixels on
all four sides. -/
def padWhite (p : Nat) (img : Gray) : Gray :=
  List.replicate p (List.replicate (imgWidth img + 2 * p) 255) ++
  img.map (fun row => List.replicate p 255 ++ row ++ List.replicate p 255) ++
  List.replicate p (List.replicate (imgWidth img + 2 * p) 255)

/-- `KindleMangaOptimizer._auto_trim_and_pad` (src/main.py lines 832-843):
threshold by the external Otsu oracle with dark content as foreground; the
union bounding rectangle of the external contours is the bounding box of
the foreground pixels (`cv2.boundingRect(np.vstack(contours))` spans the
extremal contour points, which are the extremal foreground pixels); crop to
it and re-pad with a uniform 16-pixel white margin; with no contour return
the image unchanged. -/
def auto_trim_and_pad (otsu : Gray → Nat) (img : Gray) (pad_px : Nat) : Gray :=
  let t := otsu img
  match (fgRowIdxs t img).head?, (fgRowIdxs t img).getLast?,
    (fgColIdxs t img).head?, (fgColIdxs t img).getLast? with
  | some rmin, some rmax, some cmin, some cmax =>
    padWhite pad_px (cropGrid rmin (rmax - rmin + 1) cmin (cmax - cmin + 1) img)
  | _, _, _, _ => img

/-- The image is rectangular of width `W`. -/
def Rect (W : Nat) (img : Gray) : Prop := ∀ row ∈ img, row.length = W

/-- The property of the external `cv2` Otsu threshold that the idempotence
argument rests on: re-thresholding a trimmed-and-padded output never drops
the threshold below the one that produced that output, and never reaches
pure white (adding pure-white mass moves the Otsu split upward, and on a
non-constant image the returned threshold stays below the maximal grey
level).  The oracle is external code, so this is an assumption about it,
not something provable from src/. -/
def OtsuStable (otsu : Gray → Nat) : Prop :=
  ∀ g : Gray, fgRowIdxs (otsu g) g ≠ [] →
    otsu g ≤ otsu (auto_trim_and_pad otsu g 16) ∧
    otsu (auto_trim_and_pad otsu g 16) < 255

/-- A fixed global threshold, used to instantiate the idempotence theorem
(it is trivially stable). -/
def constOtsu : Gray → Nat := fun _ => 127

/-- A 3×3 image with a dark 1×2 block, for the witness. -/
def demoGray : Gray := [[255, 255, 255], [10, 20, 255], [255, 255, 255]]

theorem chunksOf_nil {α : Type} (g : Nat) : chunksOf (α := α) g [] = [] := by
  simp [chunksOf]

theorem chunksOf_flatten {α : Type} (g : Nat) (hg : g ≠ 0) (xs : List α) :
    (chunksOf g xs).flatten = xs := by
  match xs with
  | [] => simp [chunksOf]
  | x :: xs =>
    rw [chunksOf]
    simp only [hg, dite_false, List.flatten_cons]
    rw [chunksOf_flatten g hg ((x :: xs).drop g)]
    exact List.take_append_drop g (x :: xs)
termination_by xs.length
decreasing_by
  simp only [List.length_drop, List.length_cons]
  omega

theorem chunksOf_length {α : Type} (g : Nat) (hg : g ≠ 0) (xs : List α) :
    (chunksOf g xs).length = (xs.length + g - 1) / g := by
  match xs with
  | [] =>
    rw [chunksOf_nil]
    simp only [List.length_nil, Nat.zero_add]
    exact (Nat.div_eq_of_lt (by omega)).symm
  | x :: xs =>
    rw [chunksOf]
    simp only [hg, dite_false, List.length_cons]
    rw [chunksOf_length g hg ((x :: xs).drop g)]
    simp only [List.length_drop, List.length_cons]
    rcases Nat.le_total (xs.length + 1) g with hle | hle
    · have h1 : xs.length + 1 - g = 0 := by omega
      have h2 : xs.length + 1 + g - 1 = xs.length + g := by omega
      rw [h1, h2, Nat.add_div_right _ (Nat.pos_of_ne_zero hg),
        Nat.div_eq_of_lt (show 0 + g - 1 < g by omega),
        Nat.div_eq_of_lt (show xs.length < g by omega)]
    · have h2 : xs.length + 1 + g - 1 = (xs.length + 1 - g + g - 1) + g := by omega
      rw [h2, Nat.add_div_right _ (Nat.pos_of_ne_zero hg)]
termination_by xs.length
decreasing_by
  simp only [List.length_drop, List.length_cons]
  omega

theorem chunksOf_mem_length {α : Type} (g : Nat) (hg : g ≠ 0) (xs : List α) :
    ∀ c ∈ chunksOf g xs, c.length ≤ g ∧ c ≠ [] := by
  match xs with
  | [] => simp [chunksOf]
  | x :: xs =>
    rw [chunksOf]
    simp only [hg, dite_false, List.mem_cons]
    rintro c (rfl | hc)
    · constructor
      · simp only [List.length_take]
        omega
      · simp [List.take_eq_nil_iff, hg]
    · exact chunksOf_mem_length g hg ((x :: xs).drop g) c hc
termination_by xs.length
decreasing_by
  simp only [List.length_drop, List.length_cons]
  omega

theorem chunksOf_full_of_lt {α : Type} (g : Nat) (hg : g ≠ 0) (xs : List α) :
    ∀ i, i + 1 < (chunksOf g xs).length → ((chunksOf g xs).getD i []).length = g := by
  match xs with
  | [] => simp [chunksOf]
  | x :: xs =>
    rw [chunksOf]
    simp only [hg, dite_false]
    intro i hi
    match i with
    | 0 =>
      simp only [List.length_cons] at hi
      have hne : chunksOf g ((x :: xs).drop g) ≠ [] := by
        intro h
        rw [h] at hi
        simp at hi
      have hd : (x :: xs).drop g ≠ [] := by
        intro h
        rw [h, chunksOf_nil] at hne
        exact hne rfl
      simp only [List.getD_cons_zero, List.length_take, List.length_cons]
      have : g < xs.length + 1 := by
        by_contra hcon
        exact hd (List.drop_eq_nil_of_le (by simpa using Nat.le_of_not_lt hcon))
      omega
    | i + 1 =>
      simp only [List.length_cons] at hi
      simp only [List.getD_cons_succ]
      exact chunksOf_full_of_lt g hg ((x :: xs).drop g) i (by omega)
termination_by xs.length
decreasing_by
  simp only [List.length_drop, List.length_cons]
  omega

/-- C1: for a chapter list with `N` enabled chapters, group size `G ≥ 1` and
start volume `S ≥ 1`, `build_plan` produces exactly `⌈N/G⌉` volumes; each
volume is a non-empty consecutive group of at most `G` enabled chapters and
every volume except possibly the final one has exactly `G`; concatenating
the volumes gives back the enabled chapters in their relative order (so each
enabled chapter lies in exactly one volume); the assigned volume numbers are
the contiguous range `[S, S + ⌈N/G⌉ - 1]` in partition order; and zero
enabled chapters yield an empty plan with zero volumes and zero pages rather
than an error. -/
theorem build_plan_partition (chapters : List Chapter) (G S : Nat)
    (hG : 1 ≤ G) (hS : 1 ≤ S) :
    (build_plan chapters G).length =
      ((chapters.filter (·.enabled)).length + G - 1) / G ∧
    (build_plan chapters G).flatten = chapters.filter (·.enabled) ∧
    (∀ v ∈ build_plan chapters G, v.length ≤ G ∧ v ≠ []) ∧
    (∀ i, i + 1 < (build_plan chapters G).length →
      ((build_plan chapters G).getD i []).length = G) ∧
    plan_volume_numbers S (build_plan chapters G) =
      List.range' S (((chapters.filter (·.enabled)).length + G - 1) / G) ∧
    ((chapters.filter (·.enabled)).length = 0 →
      build_plan chapters G = [] ∧ plan_total_pages (build_plan chapters G) = 0) := by
  have hmax : max 1 G = G := Nat.max_eq_right hG
  have hg : G ≠ 0 := by omega
  have hlen : (build_plan chapters G).length =
      ((chapters.filter (·.enabled)).length + G - 1) / G := by
    rw [build_plan, hmax, chunksOf_length G hg]
  refine ⟨hlen, ?_, ?_, ?_, ?_, ?_⟩
  · rw [build_plan, hmax]
    exact chunksOf_flatten G hg _
  · rw [build_plan, hmax]
    exact chunksOf_mem_length G hg _
  · rw [build_plan, hmax]
    exact chunksOf_full_of_lt G hg _
  · rw [plan_volume_numbers, hlen, Nat.max_eq_right hS, List.range'_eq_map_range]
  · intro hN
    have hnil : chapters.filter (·.enabled) = [] := List.eq_nil_of_length_eq_zero hN
    constructor
    · rw [build_plan, hmax, hnil, chunksOf_nil]
    · rw [build_plan, hmax, hnil, chunksOf_nil]
      rfl

/-- Witness for C1 at `demoChapters`, `G = 2`, `S = 3`: three enabled
chapters split into two volumes numbered 3 and 4. -/
theorem build_plan_partition_witness :
    (1 ≤ 2 ∧ 1 ≤ 3) ∧
    ((build_plan demoChapters 2).length =
      ((demoChapters.filter (·.enabled)).length + 2 - 1) / 2 ∧
     plan_volume_numbers 3 (build_plan demoChapters 2) =
      List.range' 3 (((demoChapters.filter (·.enabled)).length + 2 - 1) / 2)) :=
  ⟨⟨by decide, by decide⟩,
   (build_plan_partition demoChapters 2 3 (by decide) (by decide)).1,
   (build_plan_partition demoChapters 2 3 (by decide) (by decide)).2.2.2.2.1⟩

theorem charsLE_total : ∀ a b : List Char, charsLE a b = true ∨ charsLE b a = true := by
  intro a
  induction a with
  | nil => intro b; left; rfl
  | cons x xs ih =>
    intro b
    match b with
    | [] => right; rfl
    | y :: ys =>
      rcases lt_trichotomy x y with h | h | h
      · left; simp [charsLE, h]
      · subst h
        rcases ih ys with h' | h'
        · left; simp [charsLE, lt_irrefl, h']
        · right; simp [charsLE, lt_irrefl, h']
      · right; simp [charsLE, h]

theorem charsLE_trans : ∀ a b c : List Char,
    charsLE a b = true → charsLE b c = true → charsLE a c = true := by
  intro a
  induction a with
  | nil => intro b c _ _; rfl
  | cons x xs ih =>
    intro b c hab hbc
    match b, c with
    | [], _ => simp [charsLE] at hab
    | _ :: _, [] => simp [charsLE] at hbc
    | y :: ys, z :: zs =>
      simp only [charsLE] at hab hbc ⊢
      rcases lt_trichotomy x y with hxy | hxy | hxy
      · rcases lt_trichotomy y z with hyz | hyz | hyz
        · simp [lt_trans hxy hyz]
        · subst hyz; simp [hxy]
        · rw [if_neg (lt_asymm hyz), if_pos hyz] at hbc
          exact absurd hbc (by simp)
      · subst hxy
        rcases lt_trichotomy x z with hyz | hyz | hyz
        · simp [hyz]
        · subst hyz
          rw [if_neg (lt_irrefl x), if_neg (lt_irrefl x)] at hab hbc
          simp only [if_neg (lt_irrefl x)]
          exact ih _ _ hab hbc
        · rw [if_neg (lt_asymm hyz), if_pos hyz] at hbc
          exact absurd hbc (by simp)
      · rw [if_neg (lt_asymm hxy), if_pos hxy] at hab
        exact absurd hab (by simp)

theorem skeyLE_total (a b : SKey) : skeyLE a b = true ∨ skeyLE b a = true := by
  match a, b with
  | .numKey x, .numKey y =>
    rcases Int.le_total x y with h | h
    · left; simpa [skeyLE] using h
    · right; simpa [skeyLE] using h
  | .numKey _, .strKey _ => left; rfl
  | .strKey _, .numKey _ => right; rfl
  | .strKey x, .strKey y => exact charsLE_total x.data y.data

theorem skeyLE_trans (a b c : SKey) :
    skeyLE a b = true → skeyLE b c = true → skeyLE a c = true := by
  match a, b, c with
  | .numKey x, .numKey y, .numKey z =>
    intro h1 h2
    simp only [skeyLE, decide_eq_true_eq] at h1 h2 ⊢
    omega
  | .numKey _, _, .strKey _ => intro _ _; rfl
  | .numKey _, .strKey _, .numKey _ => intro _ h; exact absurd h (by simp [skeyLE])
  | .strKey _, .numKey _, _ => intro h _; exact absurd h (by simp [skeyLE])
  | .strKey _, .strKey _, .numKey _ => intro _ h; exact absurd h (by simp [skeyLE])
  | .strKey x, .strKey y, .strKey z => exact charsLE_trans x.data y.data z.data

theorem sortByKey_sorted (key : String → SKey) (names : List String) :
    List.Sorted (fun a b => skeyLE (key a) (key b) = true) (sortByKey key names) := by
  haveI : IsTotal String fun a b => skeyLE (key a) (key b) = true :=
    ⟨fun a b => skeyLE_total (key a) (key b)⟩
  haveI : IsTrans String fun a b => skeyLE (key a) (key b) = true :=
    ⟨fun a b c => skeyLE_trans (key a) (key b) (key c)⟩
  exact List.sorted_insertionSort _ names

/-- C2: `sort_chapter_key` returns `(0, n)` when the chapter pattern matches
and the capture parses as the integer `n`, and `(1, lowercased name)` on no
match or a non-numeric capture; `sort_image_key` behaves identically against
the image pattern; tuple ordering places every numeric key before every
fallback key, numeric keys ascending by value and fallback keys
lexicographic; key-sorting is a stable permutation that is sorted under this
order; and `["Chapter 2", "Chapter 10", "Chapter abc"]` sorts to exactly
itself under a pattern matching `Chapter <int>`. -/
theorem sort_key_spec :
    (∀ (profile : SourceProfile) (search : String → Option String)
        (name cap : String) (n : Int),
        profile.chapter_dir_regex = some search → search name = some cap →
        pyInt? cap = some n → profile.sort_chapter_key name = .numKey n) ∧
    (∀ (profile : SourceProfile) (search : String → Option String) (name : String),
        profile.chapter_dir_regex = some search → search name = none →
        profile.sort_chapter_key name = .strKey (pyLower name)) ∧
    (∀ (profile : SourceProfile) (search : String → Option String) (name cap : String),
        profile.chapter_dir_regex = some search → search name = some cap →
        pyInt? cap = none → profile.sort_chapter_key name = .strKey (pyLower name)) ∧
    (∀ (profile : SourceProfile) (name : String),
        profile.sort_image_key name =
          SourceProfile.sort_chapter_key
            { profile with chapter_dir_regex := profile.image_file_regex } name) ∧
    (∀ (n : Int) (s : String),
        skeyLE (.numKey n) (.strKey s) = true ∧ skeyLE (.strKey s) (.numKey n) = false) ∧
    (∀ a b : Int, skeyLE (.numKey a) (.numKey b) = true ↔ a ≤ b) ∧
    (∀ s t : String, skeyLE (.strKey s) (.strKey t) = pyStrLE s t) ∧
    (∀ (key : String → SKey) (names : List String),
        List.Sorted (fun a b => skeyLE (key a) (key b) = true) (sortByKey key names) ∧
        (sortByKey key names).Perm names) ∧
    sortByKey chapterIntProfile.sort_chapter_key ["Chapter 2", "Chapter 10", "Chapter abc"] =
      ["Chapter 2", "Chapter 10", "Chapter abc"] := by
  refine ⟨?_, ?_, ?_, ?_, ?_, ?_, ?_, ?_, ?_⟩
  · intro profile search name cap n hre hsearch hint
    simp [SourceProfile.sort_chapter_key, hre, hsearch, hint]
  · intro profile search name hre hsearch
    simp [SourceProfile.sort_chapter_key, hre, hsearch]
  · intro profile search name cap hre hsearch hint
    simp [SourceProfile.sort_chapter_key, hre, hsearch, hint]
  · intro profile name
    rfl
  · intro n s
    exact ⟨rfl, rfl⟩
  · intro a b
    simp [skeyLE]
  · intro s t
    rfl
  · intro key names
    exact ⟨sortByKey_sorted key names, List.perm_insertionSort _ names⟩
  · decide

/-- Witness for C2 at the concrete profile and name `"Chapter 2"`: the
pattern captures `"2"`, which parses to 2, so the key is `(0, 2)`. -/
theorem sort_key_spec_witness :
    firstIntSearch "Chapter 2" = some "2" ∧ pyInt? "2" = some 2 ∧
    chapterIntProfile.sort_chapter_key "Chapter 2" = .numKey 2 :=
  ⟨by decide, by decide,
   sort_key_spec.1 chapterIntProfile firstIntSearch "Chapter 2" "2" 2 rfl
     (by decide) (by decide)⟩

theorem writeSeqs_nil : writeSeqs [] = [] := rfl

theorem writeSeqs_cons_write (p : String) (s : Nat) (es : List Effect) :
    writeSeqs (.writeFile p s :: es) = s :: writeSeqs es := rfl

theorem writeSeqs_cons_log (m : String) (es : List Effect) :
    writeSeqs (.log m :: es) = writeSeqs es := rfl

theorem writeSeqs_append (a b : List Effect) :
    writeSeqs (a ++ b) = writeSeqs a ++ writeSeqs b :=
  List.filterMap_append a b _

theorem imagesLoop_bounds (ok : String → Bool) (cancel : Nat → Bool) (dest : String) :
    ∀ (imgs : List String) (seq k : Nat),
      seq ≤ (imagesLoop ok cancel dest imgs seq k).2.1 ∧
      (imagesLoop ok cancel dest imgs seq k).2.1 ≤ seq + imgs.length ∧
      (∀ s ∈ writeSeqs (imagesLoop ok cancel dest imgs seq k).1,
        seq ≤ s ∧ s < (imagesLoop ok cancel dest imgs seq k).2.1) ∧
      (writeSeqs (imagesLoop ok cancel dest imgs seq k).1).Pairwise (· < ·) ∧
      (∀ p s, Effect.writeFile p s ∈ (imagesLoop ok cancel dest imgs seq k).1 →
        p = dest ++ "/" ++ pyZFill 5 s ++ ".jpg") := by
  intro imgs
  induction imgs with
  | nil => intro seq k; simp [imagesLoop, writeSeqs]
  | cons img rest ih =>
    intro seq k
    by_cases hc : cancel k
    · simp [imagesLoop, hc, writeSeqs]
    · obtain ⟨ih1, ih2, ih3, ih4, ih5⟩ := ih (seq + 1) (k + 1)
      simp only [imagesLoop, hc, Bool.false_eq_true, if_false]
      by_cases ho : ok img
      · simp only [process_single_image_effect, ho, if_true, writeSeqs_cons_write,
          List.mem_cons, List.pairwise_cons, List.length_cons]
        refine ⟨by omega, by omega, ?_, ?_, ?_⟩
        · rintro s (rfl | hs)
          · exact ⟨Nat.le_refl _, by omega⟩
          · have := ih3 s hs
            omega
        · exact ⟨fun s hs => by have := ih3 s hs; omega, ih4⟩
        · rintro p s (heq | hmem)
          · cases heq; rfl
          · exact ih5 p s hmem
      · simp only [process_single_image_effect, ho, if_false, writeSeqs_cons_log,
          List.mem_cons, List.length_cons]
        refine ⟨by omega, by omega, ?_, ih4, ?_⟩
        · intro s hs
          have := ih3 s hs
          omega
        · rintro p s (heq | hmem)
          · exact absurd heq (by simp)
          · exact ih5 p s hmem

theorem chaptersLoop_bounds (ok : String → Bool) (cancel : Nat → Bool) (dest : String) :
    ∀ (chs : List Chapter) (seq k : Nat),
      seq ≤ (chaptersLoop ok cancel dest chs seq k).2.1 ∧
      (chaptersLoop ok cancel dest chs seq k).2.1 ≤ seq + (volumeImages chs).length ∧
      (∀ s ∈ writeSeqs (chaptersLoop ok cancel dest chs seq k).1,
        seq ≤ s ∧ s < (chaptersLoop ok cancel dest chs seq k).2.1) ∧
      (writeSeqs (chaptersLoop ok cancel dest chs seq k).1).Pairwise (· < ·) ∧
      (∀ p s, Effect.writeFile p s ∈ (chaptersLoop ok cancel dest chs seq k).1 →
        p = dest ++ "/" ++ pyZFill 5 s ++ ".jpg") := by
  intro chs
  induction chs with
  | nil => intro seq k; simp [chaptersLoop, writeSeqs]
  | cons ch rest ih =>
    intro seq k
    obtain ⟨im1, im2, im3, im4, im5⟩ := imagesLoop_bounds ok cancel dest ch.images seq k
    have himlen : (imagesLoop ok cancel dest ch.images seq k).2.1 ≤
        seq + (volumeImages (ch :: rest)).length := by
      simp only [volumeImages, List.map_cons, List.flatten_cons, List.length_append]
      omega
    by_cases hc : cancel (imagesLoop ok cancel dest ch.images seq k).2.2
    · simp only [chaptersLoop, hc, if_true]
      exact ⟨im1, himlen, im3, im4, im5⟩
    · obtain ⟨ih1, ih2, ih3, ih4, ih5⟩ :=
        ih (imagesLoop ok cancel dest ch.images seq k).2.1
          ((imagesLoop ok cancel dest ch.images seq k).2.2 + 1)
      simp only [chaptersLoop, hc, Bool.false_eq_true, if_false, writeSeqs_append,
        List.mem_append]
      refine ⟨by omega, ?_, ?_, ?_, ?_⟩
      · simp only [volumeImages, List.map_cons, List.flatten_cons, List.length_append]
        simp only [volumeImages] at ih2
        omega
      · rintro s (hs | hs)
        · have := im3 s hs
          omega
        · have := ih3 s hs
          omega
      · refine List.pairwise_append.2 ⟨im4, ih4, ?_⟩
        intro a ha b hb
        have h1 := im3 a ha
        have h2 := ih3 b hb
        omega
      · rintro p s (hmem | hmem)
        · exact im5 p s hmem
        · exact ih5 p s hmem

theorem seqWrites_append (ok : String → Bool) :
    ∀ (a b : List String) (seq : Nat),
      seqWrites ok (a ++ b) seq = seqWrites ok a seq ++ seqWrites ok b (seq + a.length) := by
  intro a
  induction a with
  | nil => intro b seq; simp [seqWrites]
  | cons x xs ih =>
    intro b seq
    show (if ok x = true then [seq] else []) ++ seqWrites ok (xs ++ b) (seq + 1) =
      ((if ok x = true then [seq] else []) ++ seqWrites ok xs (seq + 1)) ++
        seqWrites ok b (seq + (x :: xs).length)
    rw [ih b (seq + 1), List.append_assoc, List.length_cons,
      show seq + 1 + xs.length = seq + (xs.length + 1) by omega]

theorem imagesLoop_noCancel (ok : String → Bool) (dest : String) :
    ∀ (imgs : List String) (seq k : Nat),
      writeSeqs (imagesLoop ok (fun _ => false) dest imgs seq k).1 =
        seqWrites ok imgs seq ∧
      (imagesLoop ok (fun _ => false) dest imgs seq k).2.1 = seq + imgs.length := by
  intro imgs
  induction imgs with
  | nil => intro seq k; exact ⟨rfl, rfl⟩
  | cons img rest ih =>
    intro seq k
    obtain ⟨ih1, ih2⟩ := ih (seq + 1) (k + 1)
    have hunfold : imagesLoop ok (fun _ => false) dest (img :: rest) seq k =
        (process_single_image_effect ok dest img seq ::
          (imagesLoop ok (fun _ => false) dest rest (seq + 1) (k + 1)).1,
         (imagesLoop ok (fun _ => false) dest rest (seq + 1) (k + 1)).2) := rfl
    rw [hunfold]
    constructor
    · show writeSeqs (process_single_image_effect ok dest img seq ::
          (imagesLoop ok (fun _ => false) dest rest (seq + 1) (k + 1)).1) =
        (if ok img = true then [seq] else []) ++ seqWrites ok rest (seq + 1)
      by_cases ho : ok img
      · rw [process_single_image_effect, if_pos ho, writeSeqs_cons_write, ih1, if_pos ho,
          List.singleton_append]
      · rw [process_single_image_effect, if_neg ho, writeSeqs_cons_log, ih1, if_neg ho,
          List.nil_append]
    · show (imagesLoop ok (fun _ => false) dest rest (seq + 1) (k + 1)).2.1 =
        seq + (img :: rest).length
      rw [List.length_cons]
      omega

theorem chaptersLoop_noCancel (ok : String → Bool) (dest : String) :
    ∀ (chs : List Chapter) (seq k : Nat),
      writeSeqs (chaptersLoop ok (fun _ => false) dest chs seq k).1 =
        seqWrites ok (volumeImages chs) seq ∧
      (chaptersLoop ok (fun _ => false) dest chs seq k).2.1 =
        seq + (volumeImages chs).length := by
  intro chs
  induction chs with
  | nil => intro seq k; exact ⟨rfl, rfl⟩
  | cons ch rest ih =>
    intro seq k
    obtain ⟨im1, im2⟩ := imagesLoop_noCancel ok dest ch.images seq k
    obtain ⟨ih1, ih2⟩ := ih (imagesLoop ok (fun _ => false) dest ch.images seq k).2.1
      ((imagesLoop ok (fun _ => false) dest ch.images seq k).2.2 + 1)
    have hunfold : chaptersLoop ok (fun _ => false) dest (ch :: rest) seq k =
        ((imagesLoop ok (fun _ => false) dest ch.images seq k).1 ++
          (chaptersLoop ok (fun _ => false) dest rest
            (imagesLoop ok (fun _ => false) dest ch.images seq k).2.1
            ((imagesLoop ok (fun _ => false) dest ch.images seq k).2.2 + 1)).1,
         (chaptersLoop ok (fun _ => false) dest rest
            (imagesLoop ok (fun _ => false) dest ch.images seq k).2.1
            ((imagesLoop ok (fun _ => false) dest ch.images seq k).2.2 + 1)).2) := rfl
    rw [hunfold]
    have hvol : volumeImages (ch :: rest) = ch.images ++ volumeImages rest := by
      simp [volumeImages]
    constructor
    · show writeSeqs (_ ++ _) = _
      rw [writeSeqs_append, im1, ih1, im2, hvol, seqWrites_append]
    · show (chaptersLoop ok (fun _ => false) dest rest
          (imagesLoop ok (fun _ => false) dest ch.images seq k).2.1
          ((imagesLoop ok (fun _ => false) dest ch.images seq k).2.2 + 1)).2.1 = _
      rw [ih2, im2, hvol, List.length_append]
      omega

theorem chaptersLoop_empty_images (ok : String → Bool) (cancel : Nat → Bool)
    (dest : String) :
    ∀ (chs : List Chapter) (seq k : Nat), (∀ ch ∈ chs, ch.images = []) →
      (chaptersLoop ok cancel dest chs seq k).1 = [] := by
  intro chs
  induction chs with
  | nil => intro seq k _; rfl
  | cons ch rest ih =>
    intro seq k hempty
    have hch : ch.images = [] := hempty ch (by simp)
    simp only [chaptersLoop, hch, imagesLoop]
    by_cases hc : cancel k
    · simp [hc]
    · simp only [hc, Bool.false_eq_true, if_false, List.nil_append]
      exact ih seq (k + 1) (fun c hc' => hempty c (by simp [hc']))

/-- C3: within one volume the exporter visits chapters in volume order and
images in chapter order with a per-volume counter that starts at 1 and
advances once per attempted image, successful or not: the sequence numbers
of the written files are strictly increasing (hence no two files of one
volume share a sequence number), each lies in `[1, #images]`, every file
name is `dest/{seq:05d}.jpg` keyed by its sequence number, zero images
yield zero files and no error, and in an uncancelled run the written
numbers are exactly the successful positions of the attempt counter, so a
failed page leaves a gap instead of being compacted. -/
theorem export_volume_sequencing (ok : String → Bool) (cancel : Nat → Bool)
    (dest : String) (vol : List Chapter) (k : Nat) :
    (writeSeqs (chaptersLoop ok cancel dest vol 1 k).1).Pairwise (· < ·) ∧
    (writeSeqs (chaptersLoop ok cancel dest vol 1 k).1).Nodup ∧
    (∀ s ∈ writeSeqs (chaptersLoop ok cancel dest vol 1 k).1,
      1 ≤ s ∧ s ≤ (volumeImages vol).length) ∧
    (∀ p s, Effect.writeFile p s ∈ (chaptersLoop ok cancel dest vol 1 k).1 →
      p = dest ++ "/" ++ pyZFill 5 s ++ ".jpg") ∧
    ((∀ ch ∈ vol, ch.images = []) → (chaptersLoop ok cancel dest vol 1 k).1 = []) ∧
    writeSeqs (chaptersLoop ok (fun _ => false) dest vol 1 k).1 =
      seqWrites ok (volumeImages vol) 1 := by
  obtain ⟨h1, h2, h3, h4, h5⟩ := chaptersLoop_bounds ok cancel dest vol 1 k
  refine ⟨h4, h4.imp fun h => Nat.ne_of_lt h, ?_, h5,
    chaptersLoop_empty_images ok cancel dest vol 1 k,
    (chaptersLoop_noCancel ok dest vol 1 k).1⟩
  intro s hs
  have := h3 s hs
  omega

/-- Witness for C3: two chapters with empty image lists produce no effects
at all (zero files, no error). -/
theorem export_volume_sequencing_witness :
    ((∀ ch ∈ [Chapter.mk "a" "a" [] true, Chapter.mk "b" "b" [] true], ch.images = []) →
      (chaptersLoop (fun _ => true) (fun _ => false) "temp/vol_01"
        [Chapter.mk "a" "a" [] true, Chapter.mk "b" "b" [] true] 1 0).1 = []) ∧
    (chaptersLoop (fun _ => true) (fun _ => false) "temp/vol_01"
        [Chapter.mk "a" "a" [] true, Chapter.mk "b" "b" [] true] 1 0).1 = [] :=
  ⟨(export_volume_sequencing (fun _ => true) (fun _ => false) "temp/vol_01"
      [Chapter.mk "a" "a" [] true, Chapter.mk "b" "b" [] true] 0).2.2.2.2.1,
   (export_volume_sequencing (fun _ => true) (fun _ => false) "temp/vol_01"
      [Chapter.mk "a" "a" [] true, Chapter.mk "b" "b" [] true] 0).2.2.2.2.1
     (by intro ch h; fin_cases h <;> rfl)⟩

/-- C8: when no source directory is selected, or the built plan has zero
volumes, the worker aborts with the corresponding report as its only
action, before any filesystem side effect: its whole effect trace is that
single log message, so it contains no directory cleaning, creation, file
write or external invocation. -/
theorem worker_fatal_precondition (st : AppState) (ok : String → Bool)
    (cancel : Nat → Bool) (kccOk : Nat → Bool) :
    (st.selected_folder = none →
      process_plan_worker st ok cancel kccOk = [.log "⚠ Selecciona primero una carpeta."]) ∧
    (∀ folder, st.selected_folder = some folder →
      build_plan st.chapters st.group_size = [] →
      process_plan_worker st ok cancel kccOk = [.log "⚠ No hay capítulos habilitados."]) ∧
    ((st.selected_folder = none ∨ build_plan st.chapters st.group_size = []) →
      (process_plan_worker st ok cancel kccOk).filter (fun e => e.isFsEffect) = []) := by
  refine ⟨?_, ?_, ?_⟩
  · intro h
    simp [process_plan_worker, h]
  · intro folder h hplan
    simp [process_plan_worker, h, hplan]
  · rintro (h | h)
    · simp [process_plan_worker, h, Effect.isFsEffect]
    · match hf : st.selected_folder with
      | none => simp [process_plan_worker, hf, Effect.isFsEffect]
      | some folder => simp [process_plan_worker, hf, h, Effect.isFsEffect]

/-- Witness for C8: a state with no selected folder produces exactly the
report log, and its trace has no filesystem effect. -/
theorem worker_fatal_precondition_witness :
    process_plan_worker
        { selected_folder := none, chapters := demoChapters, group_size := 10,
          start_volume := 1, series_title := "", clean_temp_before := true,
          clean_ebooks_before := true }
        (fun _ => true) (fun _ => false) (fun _ => true) =
      [.log "⚠ Selecciona primero una carpeta."] :=
  (worker_fatal_precondition
      { selected_folder := none, chapters := demoChapters, group_size := 10,
        start_volume := 1, series_title := "", clean_temp_before := true,
        clean_ebooks_before := true }
      (fun _ => true) (fun _ => false) (fun _ => true)).1 rfl

theorem scanSubdirs_eq_ok (profile : SourceProfile) :
    ∀ l : List FsNode, (∀ n li, FsNode.dir n li ∈ l → ∃ cs, li = .ok cs) →
      scanSubdirs profile (l.filterMap dirListing?) =
        .ok (l.filterMap (fun d =>
          match d with
          | FsNode.dir dname (.ok children) =>
            let files := matchingFiles profile children
            if files.isEmpty then none
            else some { name := dname, dir := dname, images := files.map FsNode.name,
                        enabled := true }
          | _ => none)) := by
  intro l
  induction l with
  | nil => intro _; rfl
  | cons e rest ih =>
    intro h
    have hrest : ∀ n li, FsNode.dir n li ∈ rest → ∃ cs, li = .ok cs :=
      fun n li hm => h n li (List.mem_cons_of_mem e hm)
    cases e with
    | file nm => simpa [dirListing?] using ih hrest
    | broken nm => simpa [dirListing?] using ih hrest
    | dir nm li =>
      obtain ⟨cs, rfl⟩ := h nm li (List.mem_cons_self _ _)
      simp only [List.filterMap_cons, dirListing?, scanSubdirs]
      rw [ih hrest]
      by_cases hf : (matchingFiles profile cs).isEmpty
      · simp [hf]
      · simp [hf]

theorem sorted_dirs_listings_ok (profile : SourceProfile) (entries : List FsNode)
    (hok : ListingsOk entries) :
    ∀ n li, FsNode.dir n li ∈
      sortNodesBy profile.sort_chapter_key (entries.filter (·.is_dir)) →
      ∃ cs, li = .ok cs := by
  intro n li hm
  have hperm := List.perm_insertionSort
    (fun a b => skeyLE (profile.sort_chapter_key a.name)
      (profile.sort_chapter_key b.name) = true) (entries.filter (·.is_dir))
  have hmem : FsNode.dir n li ∈ entries.filter (·.is_dir) := hperm.mem_iff.1 hm
  exact hok n li (List.mem_of_mem_filter hmem)

theorem mem_matchingFiles (profile : SourceProfile) (children : List FsNode)
    (f : FsNode) (hf : f ∈ matchingFiles profile children) :
    f.is_file = true ∧ isImageSuffix f.name = true := by
  have hperm := List.perm_insertionSort
    (fun a b => skeyLE (profile.sort_image_key a.name)
      (profile.sort_image_key b.name) = true)
    (children.filter (fun f => f.is_file && isImageSuffix f.name))
  have hmem : f ∈ children.filter (fun f => f.is_file && isImageSuffix f.name) :=
    hperm.mem_iff.1 hf
  have := List.of_mem_filter hmem
  exact Bool.and_eq_true_iff.1 this

/-- C4: with a profile expecting subfolders and subfolder mode on, scanning
a root whose subdirectory listings are readable visits only the immediate
subdirectories sorted by the chapter key, keeps in each only the regular
files whose extension lower-cases into {.jpg, .jpeg, .png, .webp} sorted by
the image key, drops a subdirectory with zero matching files entirely, and
marks every produced Chapter enabled with a non-empty image list. -/
theorem scanner_subfolder_mode (profile : SourceProfile) (rootName : String)
    (entries : List FsNode) (hexp : profile.expects_subfolders = true)
    (hok : ListingsOk entries) :
    scan_images profile true rootName (.ok entries) = .ok (specScan profile entries) ∧
    (∀ c ∈ specScan profile entries,
      c.enabled = true ∧ c.images ≠ [] ∧ c.dir = c.name ∧
      ∀ img ∈ c.images, isImageSuffix img = true) ∧
    (∀ name, isImageSuffix name = true ↔
      pyLower (pySuffix name) ∈ [".jpg", ".jpeg", ".png", ".webp"]) := by
  refine ⟨?_, ?_, ?_⟩
  · rw [scan_images]
    simp only [hexp, Bool.true_and, if_true]
    exact scanSubdirs_eq_ok profile _ (sorted_dirs_listings_ok profile entries hok)
  · intro c hc
    rw [specScan] at hc
    obtain ⟨d, _, hfd⟩ := List.mem_filterMap.1 hc
    match d with
    | FsNode.file _ => exact absurd hfd (by simp)
    | FsNode.broken _ => exact absurd hfd (by simp)
    | FsNode.dir _ (.error _) => exact absurd hfd (by simp)
    | FsNode.dir dname (.ok children) =>
      dsimp only at hfd
      by_cases hf : (matchingFiles profile children).isEmpty
      · rw [if_pos hf] at hfd
        exact absurd hfd (by simp)
      · rw [if_neg hf] at hfd
        obtain rfl := Option.some.inj hfd
        refine ⟨rfl, ?_, rfl, ?_⟩
        · simp only [ne_eq, List.map_eq_nil_iff]
          intro hnil
          rw [hnil] at hf
          exact hf rfl
        · intro img himg
          obtain ⟨f, hfm, rfl⟩ := List.mem_map.1 himg
          exact (mem_matchingFiles profile children f hfm).2
  · intro name
    simp [isImageSuffix, List.elem_iff]

theorem demoScanFs_listings_ok : ListingsOk demoScanFs := by
  intro n l h
  simp only [demoScanFs, List.mem_cons, List.not_mem_nil, or_false] at h
  rcases h with h | h | h | h | h
  · injection h with h1 h2
    exact ⟨_, h2⟩
  · exact absurd h (by simp)
  · injection h with h1 h2
    exact ⟨_, h2⟩
  · injection h with h1 h2
    exact ⟨_, h2⟩
  · exact absurd h (by simp)

/-- Witness for C4 at `demoScanFs` with the integer-chapter profile. -/
theorem scanner_subfolder_mode_witness :
    chapterIntProfile.expects_subfolders = true ∧
    scan_images chapterIntProfile true "root" (.ok demoScanFs) =
      .ok (specScan chapterIntProfile demoScanFs) :=
  ⟨rfl, (scanner_subfolder_mode chapterIntProfile "root" demoScanFs rfl
    demoScanFs_listings_ok).1⟩

theorem scanSubdirs_error_of_mem (profile : SourceProfile) :
    ∀ pairs : List (String × Except Unit (List FsNode)), ∀ dname : String,
      (dname, Except.error ()) ∈ pairs → scanSubdirs profile pairs = .error () := by
  intro pairs
  induction pairs with
  | nil => intro dname h; exact absurd h (List.not_mem_nil _)
  | cons p rest ih =>
    intro dname h
    rcases List.mem_cons.1 h with rfl | hmem
    · rfl
    · obtain ⟨pn, pl⟩ := p
      match pl with
      | .error e =>
        cases e
        rfl
      | .ok children =>
        simp only [scanSubdirs, ih dname hmem]

theorem filter_isdir_of_nonbroken (entries : List FsNode) :
    (entries.filter (fun e => !e.isBroken)).filter (·.is_dir) =
      entries.filter (·.is_dir) := by
  rw [List.filter_filter]
  exact List.filter_congr fun e _ => by cases e <;> rfl

theorem filter_files_of_nonbroken (entries : List FsNode) :
    (entries.filter (fun e => !e.isBroken)).filter
        (fun f => f.is_file && isImageSuffix f.name) =
      entries.filter (fun f => f.is_file && isImageSuffix f.name) := by
  rw [List.filter_filter]
  exact List.filter_congr fun e _ => by cases e <;> simp [FsNode.is_file, FsNode.isBroken]

theorem matchingFiles_nonbroken (profile : SourceProfile) (entries : List FsNode) :
    matchingFiles profile (entries.filter (fun e => !e.isBroken)) =
      matchingFiles profile entries := by
  rw [matchingFiles, matchingFiles, filter_files_of_nonbroken]

/-- C9 counterexample: a root with one readable chapter directory and one
subdirectory whose listing raises makes the whole scan raise — the scanner
does not skip the unreadable entry and produce a Chapter list from the
readable one, so an unreadable directory entry is fatal. -/
theorem scan_unreadable_entry_fatal :
    scan_images chapterIntProfile true "root" (.ok demoBrokenFs) = .error () := rfl

/-- C9 (amended): entries whose `stat` fails are indeed skipped without
aborting the scan (pathlib's `is_dir`/`is_file` swallow the error, so such
entries simply drop out, and a scan whose subdirectory listings succeed
always returns a chapter list); but an entry whose directory listing raises
is fatal: the exception propagates out of `scan_images` instead of the
entry being skipped. -/
theorem scan_error_handling (profile : SourceProfile) (psf : Bool) (rootName : String)
    (entries : List FsNode) :
    scan_images profile psf rootName (.ok entries) =
      scan_images profile psf rootName (.ok (entries.filter (fun e => !e.isBroken))) ∧
    (ListingsOk entries →
      ∃ cs, scan_images profile psf rootName (.ok entries) = .ok cs) ∧
    (∀ n, profile.expects_subfolders = true → psf = true →
      FsNode.dir n (.error ()) ∈ entries →
      scan_images profile psf rootName (.ok entries) = .error ()) := by
  refine ⟨?_, ?_, ?_⟩
  · by_cases hmode : profile.expects_subfolders && psf
    · rw [scan_images, scan_images]
      simp only [hmode, if_true]
      rw [filter_isdir_of_nonbroken]
    · rw [scan_images, scan_images]
      simp only [hmode, Bool.false_eq_true, if_false]
      rw [matchingFiles_nonbroken]
  · intro hok
    by_cases hmode : profile.expects_subfolders && psf
    · rw [scan_images]
      simp only [hmode, if_true]
      exact ⟨_, scanSubdirs_eq_ok profile _ (sorted_dirs_listings_ok profile entries hok)⟩
    · rw [scan_images]
      simp only [hmode, Bool.false_eq_true, if_false]
      by_cases hf : (matchingFiles profile entries).isEmpty <;> simp [hf]
  · intro n hexp hpsf hmem
    rw [scan_images]
    simp only [hexp, hpsf, Bool.true_and, if_true]
    apply scanSubdirs_error_of_mem profile _ n
    apply List.mem_filterMap.2
    refine ⟨FsNode.dir n (.error ()), ?_, rfl⟩
    have hperm := List.perm_insertionSort
      (fun a b => skeyLE (profile.sort_chapter_key a.name)
        (profile.sort_chapter_key b.name) = true) (entries.filter (·.is_dir))
    apply hperm.mem_iff.2
    exact List.mem_filter.2 ⟨hmem, rfl⟩

/-- Witness for C9 at `demoScanFs` (which contains a stat-broken entry):
the scan succeeds and is unchanged by removing the broken entry. -/
theorem scan_error_handling_witness :
    (∃ cs, scan_images chapterIntProfile true "root" (.ok demoScanFs) = .ok cs) ∧
    scan_images chapterIntProfile true "root" (.ok demoScanFs) =
      scan_images chapterIntProfile true "root"
        (.ok (demoScanFs.filter (fun e => !e.isBroken))) :=
  ⟨(scan_error_handling chapterIntProfile true "root" demoScanFs).2.1
      demoScanFs_listings_ok,
   (scan_error_handling chapterIntProfile true "root" demoScanFs).1⟩

theorem isPrefixOf_eq_true_iff : ∀ a b : List Char, a.isPrefixOf b = true ↔ a <+: b := by
  intro a
  induction a with
  | nil => intro b; simp [List.isPrefixOf]
  | cons x xs ih =>
    intro b
    match b with
    | [] => simp [List.isPrefixOf]
    | y :: ys => simp [List.isPrefixOf, List.cons_prefix_cons, ih ys]

theorem prefixes_comparable {s a b : String} (ha : pyStartsWith s a = true)
    (hb : pyStartsWith s b = true) :
    (a.data.isPrefixOf b.data || b.data.isPrefixOf a.data) = true := by
  rw [pyStartsWith, isPrefixOf_eq_true_iff] at ha hb
  rw [Bool.or_eq_true, isPrefixOf_eq_true_iff, isPrefixOf_eq_true_iff]
  rcases Nat.le_total a.data.length b.data.length with h | h
  · exact Or.inl (List.prefix_of_prefix_length_le ha hb h)
  · exact Or.inr (List.prefix_of_prefix_length_le hb ha h)

theorem guard_false_of_other {s a b : String} (hb : pyStartsWith s b = true)
    (hn : (a.data.isPrefixOf b.data || b.data.isPrefixOf a.data) = false) :
    pyStartsWith s a = false := by
  cases hcl : pyStartsWith s a
  · rfl
  · rw [prefixes_comparable hcl hb] at hn
    exact absurd hn (by simp)

theorem presetRel_eq {Img : Type} (ops : ImageOps Img) (q : String) (img m : Img)
    (h : PresetRel ops q img m) :
    m = presetApply ops (pyLower (pyStrip q)) img := by
  cases h with
  | clean hg =>
    rw [presetApply, if_pos hg]
  | old hg =>
    have n1 : pyStartsWith (pyLower (pyStrip q)) "manga limpio" = false :=
      guard_false_of_other (a := "manga limpio") hg (by decide)
    rw [presetApply, if_neg (by simp [n1]), if_pos hg]
  | jpegScan hg =>
    have n1 : pyStartsWith (pyLower (pyStrip q)) "manga limpio" = false :=
      guard_false_of_other (a := "manga limpio") hg (by decide)
    have n2 : pyStartsWith (pyLower (pyStrip q)) "manga antiguo" = false :=
      guard_false_of_other (a := "manga antiguo") hg (by decide)
    rw [presetApply, if_neg (by simp [n1]), if_neg (by simp [n2]), if_pos hg]
  | smallText hg =>
    have n1 : pyStartsWith (pyLower (pyStrip q)) "manga limpio" = false :=
      guard_false_of_other (a := "manga limpio") hg (by decide)
    have n2 : pyStartsWith (pyLower (pyStrip q)) "manga antiguo" = false :=
      guard_false_of_other (a := "manga antiguo") hg (by decide)
    have n3 : pyStartsWith (pyLower (pyStrip q)) "escaneo con artefactos" = false :=
      guard_false_of_other (a := "escaneo con artefactos") hg (by decide)
    rw [presetApply, if_neg (by simp [n1]), if_neg (by simp [n2]),
      if_neg (by simp [n3]), if_pos hg]
  | cropOnly hg =>
    have n1 : pyStartsWith (pyLower (pyStrip q)) "manga limpio" = false :=
      guard_false_of_other (a := "manga limpio") hg (by decide)
    have n2 : pyStartsWith (pyLower (pyStrip q)) "manga antiguo" = false :=
      guard_false_of_other (a := "manga antiguo") hg (by decide)
    have n3 : pyStartsWith (pyLower (pyStrip q)) "escaneo con artefactos" = false :=
      guard_false_of_other (a := "escaneo con artefactos") hg (by decide)
    have n4 : pyStartsWith (pyLower (pyStrip q)) "texto pequeño" = false :=
      guard_false_of_other (a := "texto pequeño") hg (by decide)
    rw [presetApply, if_neg (by simp [n1]), if_neg (by simp [n2]),
      if_neg (by simp [n3]), if_neg (by simp [n4]), if_pos hg]
  | noMatch n1 n2 n3 n4 n5 =>
    rw [presetApply, if_neg (by simp [n1]), if_neg (by simp [n2]),
      if_neg (by simp [n3]), if_neg (by simp [n4]), if_neg (by simp [n5])]

/-- C6: the enhancement pipeline is a deterministic function of its three
inputs — dispatch relation derivations for the same image, preset
identifier and configuration snapshot always produce the same output image
(the five preset guards are mutually exclusive, so no nondeterminism hides
in the dispatch), and that output is exactly `enhance_image_preset`'s; with
identical input pixels the outputs are therefore identical, with no
randomized sampling anywhere. -/
theorem pipeline_determinism {Img : Type} (ops : ImageOps Img) (cfg : EnhConfig)
    (preset : String) (img o1 o2 : Img)
    (h1 : EnhanceRel ops cfg preset img o1) (h2 : EnhanceRel ops cfg preset img o2) :
    o1 = o2 ∧ o1 = enhance_image_preset ops cfg preset img := by
  obtain ⟨m1, hp1, rfl⟩ := h1
  obtain ⟨m2, hp2, rfl⟩ := h2
  rw [presetRel_eq ops preset _ m1 hp1, presetRel_eq ops preset _ m2 hp2]
  exact ⟨rfl, rfl⟩

/-- Witness for C6: a clean-preset derivation over the trace semantics
yields exactly the pipeline function's output. -/
theorem pipeline_determinism_witness :
    postApply traceOps demoCfg (traceOps.unsharp 1 (6/10) (traceOps.clahe 2 8
        (prePassApply traceOps demoCfg []))) =
      enhance_image_preset traceOps demoCfg "Manga limpio (rápido)" [] :=
  (pipeline_determinism traceOps demoCfg "Manga limpio (rápido)" [] _ _
      ⟨_, PresetRel.clean _ _ (by decide), rfl⟩
      ⟨_, PresetRel.clean _ _ (by decide), rfl⟩).2

/-- C5: the pipeline's trace decomposes into the fixed stage order — the
four pre-pass toggles in the order grayscale, autocontrast, smoothing,
legacy binarize; then the stages of exactly one preset branch selected by
prefix match on the stripped lowered identifier (unmatched identifiers and
the crop-only preset contribute none); then the always-applied 16-pixel
content trim; then contrast scaling followed by sharpness scaling; then
dithering last when enabled.  The dispatch reads the preset only through
its stripped, lowered form, which is what makes the match
case-insensitive. -/
theorem pipeline_stage_order (cfg : EnhConfig) (preset : String) :
    enhanceTrace cfg preset =
      prePassStages cfg ++ presetStages preset ++ [Stage.trimPad 16] ++
      [Stage.contrast cfg.contrast_boost, Stage.sharpness cfg.sharpness_boost] ++
      (if cfg.eink_dither then [Stage.dither] else []) ∧
    (∀ q : String, pyLower (pyStrip preset) = pyLower (pyStrip q) →
      ∀ (Img : Type) (ops : ImageOps Img) (i : Img),
        enhance_image_preset ops cfg preset i = enhance_image_preset ops cfg q i) ∧
    (pyStartsWith (pyLower (pyStrip preset)) "sólo recorte" = true →
      presetStages preset = []) := by
  refine ⟨?_, ?_, ?_⟩
  · have hpre : ∀ t : List Stage, prePassApply traceOps cfg t = t ++ prePassStages cfg := by
      intro t
      obtain ⟨tg, ac, nr, ath, cb, sb, ed⟩ := cfg
      rw [prePassApply, prePassStages]
      cases tg <;> cases ac <;> cases nr <;> cases ath <;> simp [traceOps]
    have hbranch : ∀ t : List Stage,
        presetApply traceOps (pyLower (pyStrip preset)) t = t ++ presetStages preset := by
      intro t
      rw [presetApply, presetStages]
      split_ifs <;> simp [traceOps]
    have hpost : ∀ t : List Stage, postApply traceOps cfg t =
        t ++ [Stage.trimPad 16] ++
        [Stage.contrast cfg.contrast_boost, Stage.sharpness cfg.sharpness_boost] ++
        (if cfg.eink_dither then [Stage.dither] else []) := by
      intro t
      rw [postApply]
      cases he : cfg.eink_dither <;> simp [traceOps]
    rw [enhanceTrace, enhance_image_preset, hpre, hbranch, hpost]
    simp
  · intro q hq Img ops i
    rw [enhance_image_preset, enhance_image_preset, hq]
  · intro hg
    have n1 : pyStartsWith (pyLower (pyStrip preset)) "manga limpio" = false :=
      guard_false_of_other (a := "manga limpio") hg (by decide)
    have n2 : pyStartsWith (pyLower (pyStrip preset)) "manga antiguo" = false :=
      guard_false_of_other (a := "manga antiguo") hg (by decide)
    have n3 : pyStartsWith (pyLower (pyStrip preset)) "escaneo con artefactos" = false :=
      guard_false_of_other (a := "escaneo con artefactos") hg (by decide)
    have n4 : pyStartsWith (pyLower (pyStrip preset)) "texto pequeño" = false :=
      guard_false_of_other (a := "texto pequeño") hg (by decide)
    rw [presetStages]
    simp [n1, n2, n3, n4]

/-- Witness for C5: the case-insensitivity conjunct applied to two forms of
the clean preset that strip and lower-case identically. -/
theorem pipeline_stage_order_witness :
    pyLower (pyStrip "  MANGA LIMPIO (RÁPIDO)") =
      pyLower (pyStrip "Manga limpio (rápido)") ∧
    enhance_image_preset traceOps demoCfg "  MANGA LIMPIO (RÁPIDO)" [] =
      enhance_image_preset traceOps demoCfg "Manga limpio (rápido)" [] :=
  ⟨by decide,
   (pipeline_stage_order demoCfg "  MANGA LIMPIO (RÁPIDO)").2.1
     "Manga limpio (rápido)" (by decide) (List Stage) traceOps []⟩

/-- C10: `process_single_image_seq` resizes only when the image's width
strictly exceeds the configured target width, downscaling to exactly the
target width with the height scaled proportionally and truncated
(`⌊h·target/w⌋`, never larger than the original height); an image whose
width is at most the target width is passed to the pipeline unresized — the
step never upscales. -/
theorem resize_no_upscale (target w h : Nat) :
    (w ≤ target → resize_for_width target w h = (w, h)) ∧
    (target < w → resize_for_width target w h = (target, h * target / w)) ∧
    (target < w →
      (resize_for_width target w h).2 * w ≤ h * target ∧
      h * target < ((resize_for_width target w h).2 + 1) * w ∧
      (resize_for_width target w h).2 ≤ h) := by
  refine ⟨?_, ?_, ?_⟩
  · intro hle
    rw [resize_for_width, if_neg (by omega)]
  · intro hlt
    rw [resize_for_width, if_pos hlt]
  · intro hlt
    have hw : 0 < w := by omega
    rw [resize_for_width, if_pos hlt]
    refine ⟨Nat.div_mul_le_self _ _, (Nat.div_lt_iff_lt_mul hw).mp (Nat.lt_succ_self _), ?_⟩
    calc h * target / w ≤ h * w / w :=
          Nat.div_le_div_right (Nat.mul_le_mul_left h (Nat.le_of_lt hlt))
    _ = h := Nat.mul_div_cancel h hw

/-- Witness for C10 at a 2000-wide image with target 1200, and an 800-wide
image that is left untouched. -/
theorem resize_no_upscale_witness :
    (800 ≤ 1200 ∧ resize_for_width 1200 800 1000 = (800, 1000)) ∧
    (1200 < 2000 ∧ resize_for_width 1200 2000 3000 = (1200, 3000 * 1200 / 2000)) :=
  ⟨⟨by decide, (resize_no_upscale 1200 800 1000).1 (by decide)⟩,
   ⟨by decide, (resize_no_upscale 1200 2000 3000).2.1 (by decide)⟩⟩

theorem mem_head?_le {l : List Nat} (hs : l.Pairwise (· < ·)) {a : Nat}
    (ha : l.head? = some a) : a ∈ l ∧ ∀ b ∈ l, a ≤ b := by
  match l with
  | [] => simp at ha
  | x :: rest =>
    obtain rfl : x = a := by simpa using ha
    refine ⟨List.mem_cons_self _ _, ?_⟩
    intro b hb
    rcases List.mem_cons.1 hb with rfl | hb
    · exact Nat.le_refl _
    · exact Nat.le_of_lt ((List.pairwise_cons.1 hs).1 b hb)

theorem mem_getLast?_ge {l : List Nat} (hs : l.Pairwise (· < ·)) {a : Nat}
    (ha : l.getLast? = some a) : a ∈ l ∧ ∀ b ∈ l, b ≤ a := by
  match l with
  | [] => simp at ha
  | [x] =>
    obtain rfl : x = a := by simpa using ha
    simp
  | x :: y :: rest =>
    rw [List.getLast?_cons_cons] at ha
    obtain ⟨hmem, hub⟩ := mem_getLast?_ge (List.pairwise_cons.1 hs).2 ha
    refine ⟨List.mem_cons_of_mem _ hmem, ?_⟩
    intro b hb
    rcases List.mem_cons.1 hb with rfl | hb
    · exact Nat.le_of_lt ((List.pairwise_cons.1 hs).1 a hmem)
    · exact hub b hb

theorem pairwise_filter_range (p : Nat → Bool) (n : Nat) :
    ((List.range n).filter p).Pairwise (· < ·) :=
  (List.pairwise_lt_range n).filter p

theorem range_split (a n : Nat) (h : a ≤ n) :
    List.range n = List.range' 0 a ++ List.range' a (n - a) := by
  have h2 := List.range'_append_1 0 a (n - a)
  rw [Nat.zero_add] at h2
  rw [List.range_eq_range', h2]
  congr 1
  omega

theorem filter_range_head_eq (n a : Nat) (p : Nat → Bool) (ha : a < n)
    (hp : p a = true) (hlt : ∀ b, b < a → p b = false) :
    ((List.range n).filter p).head? = some a := by
  have hlow : (List.range' 0 a).filter p = [] := by
    rw [List.filter_eq_nil_iff]
    intro b hb
    obtain ⟨i, hi, rfl⟩ := List.mem_range'.1 hb
    simpa using hlt i hi
  have hsucc : List.range' a (n - a) = a :: List.range' (a + 1) (n - a - 1) := by
    obtain ⟨k, hk⟩ : ∃ k, n - a = k + 1 := ⟨n - a - 1, by omega⟩
    rw [hk, List.range'_succ]
    simp
  rw [range_split a n (by omega), List.filter_append, hlow, List.nil_append, hsucc,
    List.filter_cons_of_pos hp]
  rfl

theorem filter_range_getLast_eq (n a : Nat) (p : Nat → Bool) (ha : a < n)
    (hp : p a = true) (hgt : ∀ b, a < b → b < n → p b = false) :
    ((List.range n).filter p).getLast? = some a := by
  have hsplit1 : List.range' 0 (a + 1) = List.range' 0 a ++ [a] := by
    have h2 := List.range'_append_1 0 a 1
    rw [Nat.zero_add] at h2
    rw [show a + 1 = 1 + a by omega, ← h2]
    rfl
  have hhigh : (List.range' (a + 1) (n - (a + 1))).filter p = [] := by
    rw [List.filter_eq_nil_iff]
    intro b hb
    obtain ⟨i, hi, rfl⟩ := List.mem_range'.1 hb
    simpa using hgt (a + 1 + i) (by omega) (by omega)
  rw [range_split (a + 1) n (by omega), List.filter_append, hhigh, List.append_nil,
    hsplit1, List.filter_append, List.filter_cons_of_pos hp, List.filter_nil]
  exact List.getLast?_concat _

theorem mem_fgRowIdxs_iff {t : Nat} {img : Gray} {i : Nat} :
    i ∈ fgRowIdxs t img ↔ i < img.length ∧ rowHasFg t (img.getD i []) = true := by
  simp [fgRowIdxs, List.mem_filter, List.mem_range]

theorem mem_fgColIdxs_iff {t : Nat} {img : Gray} {j : Nat} :
    j ∈ fgColIdxs t img ↔ j < imgWidth img ∧ colHasFg t img j = true := by
  simp [fgColIdxs, List.mem_filter, List.mem_range]

theorem whiteAny_false {t k : Nat} (ht : t < 255) :
    (List.replicate k (255 : Nat)).any (fun v => v ≤ t) = false := by
  rw [List.any_eq_false]
  intro x hx
  rw [List.eq_of_mem_replicate hx]
  simp
  omega

theorem rowHasFg_padded {t p : Nat} {row : List Nat} (ht : t < 255) :
    rowHasFg t (List.replicate p 255 ++ row ++ List.replicate p 255) = rowHasFg t row := by
  simp [rowHasFg, List.any_append, whiteAny_false ht]

theorem padWhite_length (p : Nat) (img : Gray) :
    (padWhite p img).length = img.length + 2 * p := by
  simp [padWhite]
  omega

theorem imgWidth_padWhite (p : Nat) (img : Gray) (hp : 0 < p) :
    imgWidth (padWhite p img) = imgWidth img + 2 * p := by
  rw [padWhite, imgWidth]
  match hp2 : p with
  | 0 => omega
  | q + 1 => simp [List.replicate_succ]

theorem padWhite_row_low {p : Nat} {img : Gray} {i : Nat} (hi : i < p) :
    (padWhite p img)[i]? = some (List.replicate (imgWidth img + 2 * p) 255) := by
  rw [padWhite, List.append_assoc, List.getElem?_append]
  simp [hi, List.getElem?_replicate]

theorem padWhite_row_mid {p : Nat} {img : Gray} {i : Nat} (hi : i < img.length) :
    (padWhite p img)[p + i]? =
      (img[i]?).map (fun row => List.replicate p 255 ++ row ++ List.replicate p 255) := by
  have hc : ¬ (p + i < p) := by omega
  rw [padWhite, List.append_assoc, List.getElem?_append]
  simp only [List.length_replicate, hc, if_false]
  rw [Nat.add_sub_cancel_left, List.getElem?_append]
  simp only [List.length_map, hi, if_true]
  rw [List.getElem?_map]

theorem padWhite_row_high {p : Nat} {img : Gray} {i : Nat} (h1 : p + img.length ≤ i)
    (h2 : i < img.length + 2 * p) :
    (padWhite p img)[i]? = some (List.replicate (imgWidth img + 2 * p) 255) := by
  have hc1 : ¬ (i < p) := by omega
  rw [padWhite, List.append_assoc, List.getElem?_append]
  simp only [List.length_replicate, hc1, if_false]
  rw [List.getElem?_append]
  have hc2 : ¬ (i - p < img.length) := by omega
  simp only [List.length_map, hc2, if_false]
  rw [List.getElem?_replicate, if_pos (by omega)]

theorem cropGrid_length {y h x w : Nat} {img : Gray} (hy : y + h ≤ img.length) :
    (cropGrid y h x w img).length = h := by
  simp [cropGrid]
  omega

theorem cropGrid_row {y h x w : Nat} {img : Gray} {i : Nat} (hi : i < h) :
    (cropGrid y h x w img)[i]? =
      (img[y + i]?).map (fun row => (row.drop x).take w) := by
  rw [cropGrid, List.getElem?_map, List.getElem?_take, if_pos hi, List.getElem?_drop]

theorem cropGrid_rect {y h x w W : Nat} {img : Gray} (hrect : Rect W img)
    (hw : x + w ≤ W) : Rect w (cropGrid y h x w img) := by
  intro row hr
  rw [cropGrid] at hr
  obtain ⟨r, hrmem, rfl⟩ := List.mem_map.1 hr
  have hin : r ∈ img := List.mem_of_mem_drop (List.mem_of_mem_take hrmem)
  rw [List.length_take, List.length_drop, hrect r hin]
  omega

theorem rect_imgWidth {w : Nat} {g : Gray} (hrect : Rect w g) (hne : g ≠ []) :
    imgWidth g = w := by
  match g with
  | [] => exact absurd rfl hne
  | r :: rest => exact hrect r (List.mem_cons_self _ _)

theorem cropGrid_padWhite {p h w : Nat} {content : Gray} (hlen : content.length = h)
    (hrect : Rect w content) (hw : imgWidth content = w) :
    cropGrid p h p w (padWhite p content) = content := by
  rw [cropGrid, padWhite, hw, List.append_assoc]
  rw [List.drop_left' (by simp)]
  rw [List.take_left' (by simp [hlen])]
  rw [List.map_map]
  refine (List.map_congr_left ?_).trans (List.map_id content)
  intro r hr
  show ((List.replicate p (255 : Nat) ++ r ++ List.replicate p 255).drop p).take w = id r
  rw [List.append_assoc, List.drop_left' (by simp), List.take_left' (hrect r hr)]
  rfl

theorem lt_length_of_getElem?_some {α : Type} {l : List α} {i : Nat} {a : α}
    (h : l[i]? = some a) : i < l.length := by
  by_contra hc
  rw [List.getElem?_eq_none_iff.mpr (by omega)] at h
  exact absurd h (by simp)

theorem cropGrid_pixel {img : Gray} {y h x w i j : Nat}
    (hi : y ≤ i) (hi2 : i < y + h) (hj : x ≤ j) (hj2 : j < x + w)
    {row : List Nat} (hrow : img[i]? = some row) {v : Nat} (hv : row[j]? = some v) :
    ∃ crow, (cropGrid y h x w img)[i - y]? = some crow ∧ crow[j - x]? = some v := by
  refine ⟨(row.drop x).take w, ?_, ?_⟩
  · rw [cropGrid_row (by omega), show y + (i - y) = i by omega, hrow]
    rfl
  · rw [List.getElem?_take, if_pos (by omega), List.getElem?_drop,
      show x + (j - x) = j by omega, hv]

theorem padWhite_pixel {content : Gray} {i j : Nat}
    {crow : List Nat} (hrow : content[i]? = some crow) {v : Nat} (hv : crow[j]? = some v) :
    ∃ prow, (padWhite 16 content)[16 + i]? = some prow ∧ prow[16 + j]? = some v := by
  have hi : i < content.length := lt_length_of_getElem?_some hrow
  have hj : j < crow.length := lt_length_of_getElem?_some hv
  refine ⟨List.replicate 16 255 ++ crow ++ List.replicate 16 255, ?_, ?_⟩
  · rw [padWhite_row_mid hi, hrow]
    rfl
  · rw [List.append_assoc, List.getElem?_append]
    simp only [List.length_replicate]
    rw [if_neg (by omega), show 16 + j - 16 = j by omega, List.getElem?_append,
      if_pos hj, hv]

theorem padWhite_colHasFg {content : Gray} {j t2 : Nat}
    {i : Nat} {crow : List Nat} (hrow : content[i]? = some crow) {v : Nat}
    (hv : crow[j]? = some v) (hvle : v ≤ t2) :
    colHasFg t2 (padWhite 16 content) (16 + j) = true := by
  obtain ⟨prow, hp1, hp2⟩ := padWhite_pixel hrow hv
  rw [colHasFg, List.any_eq_true]
  refine ⟨prow, List.getElem?_mem hp1, ?_⟩
  rw [hp2]
  simpa using hvle

theorem padWhite_rowHasFg {content : Gray} {i t2 : Nat} (ht255 : t2 < 255)
    (hi : i < content.length) :
    rowHasFg t2 ((padWhite 16 content).getD (16 + i) []) =
      rowHasFg t2 (content.getD i []) := by
  rw [List.getD_eq_getElem?_getD, padWhite_row_mid hi, List.getD_eq_getElem?_getD,
    List.getElem?_eq_getElem hi]
  show rowHasFg t2 (List.replicate 16 255 ++ content[i] ++ List.replicate 16 255) = _
  rw [rowHasFg_padded ht255]
  rfl

theorem padWhite_row_white_low {content : Gray} {i t2 : Nat} (ht255 : t2 < 255)
    (hi : i < 16) : rowHasFg t2 ((padWhite 16 content).getD i []) = false := by
  rw [List.getD_eq_getElem?_getD, padWhite_row_low hi]
  show rowHasFg t2 (List.replicate _ 255) = false
  rw [rowHasFg]
  exact whiteAny_false ht255

theorem padWhite_row_white_high {content : Gray} {i t2 : Nat} (ht255 : t2 < 255)
    (h1 : 16 + content.length ≤ i) :
    rowHasFg t2 ((padWhite 16 content).getD i []) = false := by
  by_cases h2 : i < content.length + 2 * 16
  · rw [List.getD_eq_getElem?_getD, padWhite_row_high (by omega) h2]
    show rowHasFg t2 (List.replicate _ 255) = false
    rw [rowHasFg]
    exact whiteAny_false ht255
  · rw [List.getD_eq_getElem?_getD,
      List.getElem?_eq_none_iff.mpr (by rw [padWhite_length]; omega)]
    rfl

theorem padWhite_col_white {content : Gray} {w j t2 : Nat} (ht255 : t2 < 255)
    (hrect : Rect w content) (hj : j < 16 ∨ 16 + w ≤ j) :
    colHasFg t2 (padWhite 16 content) j = false := by
  rw [colHasFg, List.any_eq_false]
  intro row hrow
  rw [padWhite, List.append_assoc, List.mem_append, List.mem_append] at hrow
  rcases hrow with hA | hB | hC
  · rw [List.eq_of_mem_replicate hA, List.getElem?_replicate]
    by_cases hjl : j < imgWidth content + 2 * 16 <;> simp [hjl] <;> omega
  · obtain ⟨r, hrmem, rfl⟩ := List.mem_map.1 hB
    have hrl : r.length = w := hrect r hrmem
    rw [List.append_assoc, List.getElem?_append]
    simp only [List.length_replicate]
    rcases hj with hj | hj
    · rw [if_pos hj, List.getElem?_replicate, if_pos hj]
      simp
      omega
    · rw [if_neg (by omega), List.getElem?_append, if_neg (by omega),
        List.getElem?_replicate]
      by_cases h16 : j - 16 - r.length < 16 <;> simp [h16] <;> omega
  · rw [List.eq_of_mem_replicate hC, List.getElem?_replicate]
    by_cases hjl : j < imgWidth content + 2 * 16 <;> simp [hjl] <;> omega

theorem trim_fixed_point (otsu : Gray → Nat) (img : Gray) (W : Nat) (hrect : Rect W img)
    (rmin rmax cmin cmax : Nat)
    (hrmin : (fgRowIdxs (otsu img) img).head? = some rmin)
    (hrmax : (fgRowIdxs (otsu img) img).getLast? = some rmax)
    (hcmin : (fgColIdxs (otsu img) img).head? = some cmin)
    (hcmax : (fgColIdxs (otsu img) img).getLast? = some cmax)
    (ht : otsu img ≤ otsu (auto_trim_and_pad otsu img 16))
    (ht255 : otsu (auto_trim_and_pad otsu img 16) < 255) :
    auto_trim_and_pad otsu (auto_trim_and_pad otsu img 16) 16 =
      auto_trim_and_pad otsu img 16 := by
  have hpairR : (fgRowIdxs (otsu img) img).Pairwise (· < ·) := by
    rw [fgRowIdxs]
    exact pairwise_filter_range _ _
  have hpairC : (fgColIdxs (otsu img) img).Pairwise (· < ·) := by
    rw [fgColIdxs]
    exact pairwise_filter_range _ _
  obtain ⟨hrmin_mem, hrmin_lb⟩ := mem_head?_le hpairR hrmin
  obtain ⟨hrmax_mem, hrmax_ub⟩ := mem_getLast?_ge hpairR hrmax
  obtain ⟨hcmin_mem, hcmin_lb⟩ := mem_head?_le hpairC hcmin
  obtain ⟨hcmax_mem, hcmax_ub⟩ := mem_getLast?_ge hpairC hcmax
  obtain ⟨hrmin_lt, hrmin_fg⟩ := mem_fgRowIdxs_iff.1 hrmin_mem
  obtain ⟨hrmax_lt, hrmax_fg⟩ := mem_fgRowIdxs_iff.1 hrmax_mem
  obtain ⟨hcmin_lt, hcmin_colfg⟩ := mem_fgColIdxs_iff.1 hcmin_mem
  obtain ⟨hcmax_lt, hcmax_colfg⟩ := mem_fgColIdxs_iff.1 hcmax_mem
  have hrr : rmin ≤ rmax := hrmin_lb rmax hrmax_mem
  have hcc : cmin ≤ cmax := hcmin_lb cmax hcmax_mem
  have himgne : img ≠ [] := by
    intro he
    rw [he] at hrmin_lt
    simp at hrmin_lt
  have hW : imgWidth img = W := rect_imgWidth hrect himgne
  rw [hW] at hcmin_lt hcmax_lt
  have hpix_box : ∀ (i : Nat) (row : List Nat) (j v : Nat), img[i]? = some row →
      row[j]? = some v → v ≤ otsu img →
      rmin ≤ i ∧ i ≤ rmax ∧ cmin ≤ j ∧ j ≤ cmax := by
    intro i row j v hri hvj hvle
    have hil : i < img.length := lt_length_of_getElem?_some hri
    have hjl : j < row.length := lt_length_of_getElem?_some hvj
    have hrowi : img.getD i [] = row := by
      rw [List.getD_eq_getElem?_getD, hri]
      rfl
    have hifg : i ∈ fgRowIdxs (otsu img) img := by
      refine mem_fgRowIdxs_iff.2 ⟨hil, ?_⟩
      rw [hrowi, rowHasFg, List.any_eq_true]
      exact ⟨v, List.getElem?_mem hvj, by simpa using hvle⟩
    have hjW : j < W := by
      rw [← hrect row (List.getElem?_mem hri)]
      exact hjl
    have hjfg : j ∈ fgColIdxs (otsu img) img := by
      refine mem_fgColIdxs_iff.2 ⟨by rw [hW]; exact hjW, ?_⟩
      rw [colHasFg, List.any_eq_true]
      refine ⟨row, List.getElem?_mem hri, ?_⟩
      rw [hvj]
      simpa using hvle
    exact ⟨hrmin_lb i hifg, hrmax_ub i hifg, hcmin_lb j hjfg, hcmax_ub j hjfg⟩
  have hrow_pixel : ∀ (i : Nat), i < img.length →
      rowHasFg (otsu img) (img.getD i []) = true →
      ∃ (row : List Nat) (j v : Nat),
        img[i]? = some row ∧ row[j]? = some v ∧ v ≤ otsu img := by
    intro i hil hfg
    have hrowi : img.getD i [] = img[i] := by
      rw [List.getD_eq_getElem?_getD, List.getElem?_eq_getElem hil]
      rfl
    rw [hrowi, rowHasFg, List.any_eq_true] at hfg
    obtain ⟨v, hvmem, hvle⟩ := hfg
    obtain ⟨j, hj, hjeq⟩ := List.getElem_of_mem hvmem
    exact ⟨img[i], j, v, List.getElem?_eq_getElem hil,
      by rw [List.getElem?_eq_getElem hj, hjeq], by simpa using hvle⟩
  have hcol_pixel : ∀ (j : Nat), colHasFg (otsu img) img j = true →
      ∃ (i : Nat) (row : List Nat) (v : Nat),
        img[i]? = some row ∧ row[j]? = some v ∧ v ≤ otsu img := by
    intro j hfg
    rw [colHasFg, List.any_eq_true] at hfg
    obtain ⟨row, hrmem, hropt⟩ := hfg
    match hjv : row[j]? with
    | none =>
      rw [hjv] at hropt
      exact absurd hropt (by simp)
    | some v =>
      rw [hjv] at hropt
      obtain ⟨i, hi, hieq⟩ := List.getElem_of_mem hrmem
      exact ⟨i, row, v, by rw [List.getElem?_eq_getElem hi, hieq], hjv,
        by simpa using hropt⟩
  have ho : auto_trim_and_pad otsu img 16 =
      padWhite 16 (cropGrid rmin (rmax - rmin + 1) cmin (cmax - cmin + 1) img) := by
    simp only [auto_trim_and_pad, hrmin, hrmax, hcmin, hcmax]
  rw [ho] at ht ht255 ⊢
  set content := cropGrid rmin (rmax - rmin + 1) cmin (cmax - cmin + 1) img with hcontent
  have hclen : content.length = rmax - rmin + 1 := cropGrid_length (by omega)
  have hcrect : Rect (cmax - cmin + 1) content := cropGrid_rect hrect (by omega)
  have hcne : content ≠ [] := by
    intro he
    rw [he] at hclen
    simp at hclen
  have hcw : imgWidth content = cmax - cmin + 1 := rect_imgWidth hcrect hcne
  set t2 := otsu (padWhite 16 content) with ht2def
  have hRhead : (fgRowIdxs t2 (padWhite 16 content)).head? = some 16 := by
    rw [fgRowIdxs]
    apply filter_range_head_eq
    · rw [padWhite_length]
      omega
    · have hmid := @padWhite_rowHasFg content 0 t2 ht255
        (show 0 < content.length by omega)
      rw [Nat.add_zero] at hmid
      rw [hmid]
      obtain ⟨row, j, v, hri, hvj, hvle⟩ := hrow_pixel rmin hrmin_lt hrmin_fg
      obtain ⟨_, _, hcl, hcu⟩ := hpix_box _ _ _ _ hri hvj hvle
      obtain ⟨crow, hcrow, hcv⟩ :=
        cropGrid_pixel (y := rmin) (h := rmax - rmin + 1) (x := cmin)
          (w := cmax - cmin + 1) (Nat.le_refl rmin) (by omega) hcl (by omega) hri hvj
      rw [Nat.sub_self] at hcrow
      rw [← hcontent] at hcrow
      rw [List.getD_eq_getElem?_getD, hcrow]
      show rowHasFg t2 crow = true
      rw [rowHasFg, List.any_eq_true]
      refine ⟨v, List.getElem?_mem hcv, ?_⟩
      simp
      omega
    · intro b hb
      exact padWhite_row_white_low ht255 hb
  have hRlast : (fgRowIdxs t2 (padWhite 16 content)).getLast? =
      some (16 + (content.length - 1)) := by
    rw [fgRowIdxs]
    apply filter_range_getLast_eq
    · rw [padWhite_length]
      omega
    · have hmid := @padWhite_rowHasFg content (content.length - 1) t2 ht255
        (show content.length - 1 < content.length by omega)
      rw [hmid]
      obtain ⟨row, j, v, hri, hvj, hvle⟩ := hrow_pixel rmax hrmax_lt hrmax_fg
      obtain ⟨_, _, hcl, hcu⟩ := hpix_box _ _ _ _ hri hvj hvle
      obtain ⟨crow, hcrow, hcv⟩ :=
        cropGrid_pixel (y := rmin) (h := rmax - rmin + 1) (x := cmin)
          (w := cmax - cmin + 1) hrr (by omega) hcl (by omega) hri hvj
      rw [← hcontent] at hcrow
      have hidx : content.length - 1 = rmax - rmin := by omega
      rw [hidx, List.getD_eq_getElem?_getD, hcrow]
      show rowHasFg t2 crow = true
      rw [rowHasFg, List.any_eq_true]
      refine ⟨v, List.getElem?_mem hcv, ?_⟩
      simp
      omega
    · intro b hb1 hb2
      exact padWhite_row_white_high ht255 (by omega)
  have hChead : (fgColIdxs t2 (padWhite 16 content)).head? = some 16 := by
    rw [fgColIdxs]
    apply filter_range_head_eq
    · rw [imgWidth_padWhite 16 content (by omega), hcw]
      omega
    · obtain ⟨i, row, v, hri, hvj, hvle⟩ := hcol_pixel cmin hcmin_colfg
      obtain ⟨hrl, hru, _, _⟩ := hpix_box _ _ _ _ hri hvj hvle
      obtain ⟨crow, hcrow, hcv⟩ :=
        cropGrid_pixel (y := rmin) (h := rmax - rmin + 1) (x := cmin)
          (w := cmax - cmin + 1) hrl (by omega) (Nat.le_refl cmin) (by omega) hri hvj
      rw [Nat.sub_self] at hcv
      rw [← hcontent] at hcrow
      have := padWhite_colHasFg hcrow hcv (show v ≤ t2 by omega)
      rw [Nat.add_zero] at this
      exact this
    · intro b hb
      exact padWhite_col_white ht255 hcrect (Or.inl hb)
  have hClast : (fgColIdxs t2 (padWhite 16 content)).getLast? =
      some (16 + (cmax - cmin)) := by
    rw [fgColIdxs]
    apply filter_range_getLast_eq
    · rw [imgWidth_padWhite 16 content (by omega), hcw]
      omega
    · obtain ⟨i, row, v, hri, hvj, hvle⟩ := hcol_pixel cmax hcmax_colfg
      obtain ⟨hrl, hru, _, _⟩ := hpix_box _ _ _ _ hri hvj hvle
      obtain ⟨crow, hcrow, hcv⟩ :=
        cropGrid_pixel (y := rmin) (h := rmax - rmin + 1) (x := cmin)
          (w := cmax - cmin + 1) hrl (by omega) hcc (by omega) hri hvj
      rw [← hcontent] at hcrow
      exact padWhite_colHasFg hcrow hcv (show v ≤ t2 by omega)
    · intro b hb1 hb2
      rw [imgWidth_padWhite 16 content (by omega), hcw] at hb2
      exact padWhite_col_white ht255 hcrect (Or.inr (by omega))
  simp only [auto_trim_and_pad, ← ht2def, hRhead, hRlast, hChead, hClast]
  rw [show 16 + (content.length - 1) - 16 + 1 = content.length by omega]
  rw [show 16 + (cmax - cmin) - 16 + 1 = cmax - cmin + 1 by omega]
  rw [cropGrid_padWhite rfl hcrect hcw]

theorem fgColIdxs_ne_of_fgRow {t : Nat} {img : Gray} {W : Nat} (hrect : Rect W img)
    {i : Nat} (hi : i ∈ fgRowIdxs t img) : fgColIdxs t img ≠ [] := by
  obtain ⟨hil, hfg⟩ := mem_fgRowIdxs_iff.1 hi
  have hrowi : img.getD i [] = img[i] := by
    rw [List.getD_eq_getElem?_getD, List.getElem?_eq_getElem hil]
    rfl
  rw [hrowi, rowHasFg, List.any_eq_true] at hfg
  obtain ⟨v, hvmem, hvle⟩ := hfg
  obtain ⟨j, hj, hjeq⟩ := List.getElem_of_mem hvmem
  have himgne : img ≠ [] := by
    intro he
    rw [he] at hil
    simp at hil
  have hjW : j < W := by
    rw [← hrect img[i] (List.getElem_mem hil)]
    exact hj
  have hjmem : j ∈ fgColIdxs t img := by
    refine mem_fgColIdxs_iff.2 ⟨by rw [rect_imgWidth hrect himgne]; exact hjW, ?_⟩
    rw [colHasFg, List.any_eq_true]
    refine ⟨img[i], List.getElem_mem hil, ?_⟩
    rw [List.getElem?_eq_getElem hj, hjeq]
    simpa using hvle
  intro hF
  rw [hF] at hjmem
  exact absurd hjmem (List.not_mem_nil j)

/-- C7: `_auto_trim_and_pad` binarizes by the external global Otsu threshold
with content (pixels at most the threshold) as foreground, computes the
union bounding rectangle of the external contours — the bounding box of the
foreground pixels — crops to it and re-pads with a uniform 16-pixel white
margin on all sides; when no contour is found it returns the image
unchanged; and, provided the external threshold satisfies the `OtsuStable`
property on trimmed outputs, the stage is idempotent: re-applying it to its
own output reproduces the same bounding box, and in fact the same image
exactly. -/
theorem auto_trim_idempotent (otsu : Gray → Nat) (img : Gray) (W : Nat)
    (hrect : Rect W img) (hstable : OtsuStable otsu) :
    (fgRowIdxs (otsu img) img = [] → auto_trim_and_pad otsu img 16 = img) ∧
    (∀ rmin rmax cmin cmax : Nat,
      (fgRowIdxs (otsu img) img).head? = some rmin →
      (fgRowIdxs (otsu img) img).getLast? = some rmax →
      (fgColIdxs (otsu img) img).head? = some cmin →
      (fgColIdxs (otsu img) img).getLast? = some cmax →
      auto_trim_and_pad otsu img 16 =
        padWhite 16 (cropGrid rmin (rmax - rmin + 1) cmin (cmax - cmin + 1) img)) ∧
    auto_trim_and_pad otsu (auto_trim_and_pad otsu img 16) 16 =
      auto_trim_and_pad otsu img 16 := by
  refine ⟨?_, ?_, ?_⟩
  · intro hempty
    simp [auto_trim_and_pad, hempty]
  · intro rmin rmax cmin cmax h1 h2 h3 h4
    simp only [auto_trim_and_pad, h1, h2, h3, h4]
  · match hR : (fgRowIdxs (otsu img) img).head? with
    | none =>
      have hempty : fgRowIdxs (otsu img) img = [] := by
        cases hF : fgRowIdxs (otsu img) img with
        | nil => rfl
        | cons x rest =>
          rw [hF] at hR
          simp at hR
      have hid : auto_trim_and_pad otsu img 16 = img := by
        simp [auto_trim_and_pad, hempty]
      rw [hid, hid]
    | some rmin =>
      have hne : fgRowIdxs (otsu img) img ≠ [] := by
        intro hF
        rw [hF] at hR
        simp at hR
      have hpairR : (fgRowIdxs (otsu img) img).Pairwise (· < ·) := by
        rw [fgRowIdxs]
        exact pairwise_filter_range _ _
      have hCne : fgColIdxs (otsu img) img ≠ [] :=
        fgColIdxs_ne_of_fgRow hrect (mem_head?_le hpairR hR).1
      obtain ⟨rmax, hrmax⟩ :=
        Option.isSome_iff_exists.1 (List.getLast?_isSome.2 hne)
      obtain ⟨cmin, hcmin⟩ :=
        Option.isSome_iff_exists.1 (List.head?_isSome.2 hCne)
      obtain ⟨cmax, hcmax⟩ :=
        Option.isSome_iff_exists.1 (List.getLast?_isSome.2 hCne)
      exact trim_fixed_point otsu img W hrect rmin rmax cmin cmax hR hrmax hcmin hcmax
        (hstable img hne).1 (hstable img hne).2

/-- Witness for C7: the constant-threshold oracle is stable, and the trim
stage is idempotent on a concrete 3×3 image with a dark block. -/
theorem auto_trim_idempotent_witness :
    auto_trim_and_pad constOtsu (auto_trim_and_pad constOtsu demoGray 16) 16 =
      auto_trim_and_pad constOtsu demoGray 16 :=
  (auto_trim_idempotent constOtsu demoGray 3
      (by
        intro row hr
        simp only [demoGray, List.mem_cons, List.not_mem_nil, or_false] at hr
        rcases hr with rfl | rfl | rfl <;> rfl)
      (by intro g hg; exact ⟨by simp [constOtsu], by simp [constOtsu]⟩)).2.2

end KMO
